import Mathlib

/-!
Verification of the Espruino interrupt-to-mainloop bridge
(src/jsdevices.c and src/jsinteractive.c) against its specification.

The C sources are shallowly embedded: ring buffers become explicit state
records with a byte store indexed modulo the buffer size (the C code masks
indices with a power-of-two mask, which is the same as taking the index
modulo the buffer size), machine integers become Nat with explicit
truncation where the C stores into uint8_t, and loops whose termination
depends on well-formedness of the state take an explicit fuel argument
(fuel exhaustion is unreachable for well-formed states and is noted at
each definition).

Constants that live in headers not present in the sources
(IOEVENT_MAX_LEN, EV_TYPE_MASK, device numbering, PT_TYPE masks, the
EXEC_CTRL_C bits) are modelled from the specification and are marked as
such in their doc comments.
-/

namespace Espruino

/-! ## Generic ring-buffer index arithmetic -/

/-- Number of bytes used in a circular buffer of a given size with the given
head and tail indices.  This is the body of jshGetEventsUsed in jsdevices.c:
head minus tail, or head plus size minus tail when the indices rolled. -/
def ringUsed (size head tail : Nat) : Nat :=
  if tail ≤ head then head - tail else head + size - tail

/-! ## Error flags (jsErrorFlags)

Modelled from the spec: a process-wide sticky error word accumulating
JSERR_RX_FIFO_FULL and JSERR_BUFFER_FULL bits (bit values live in a header
not present in the sources, so each bit is a Boolean field here). -/

structure ErrorFlags where
  rxFifoFull : Bool
  bufferFull : Bool
deriving DecidableEq, Repr

/-! ## IO event receive queue (jsdevices.c)

The FIFO of received events.  Record format in the byte arena, as drawn in
jsdevices.c: one length byte (payload length, excluding the two header
bytes), one flags byte (device tag), then length payload bytes.  Data is
added at ioHead, removed at ioTail; ioLastHead points at the last appended
record header. -/

/-- Modelled from the spec: the fixed maximum payload length of one IO event
(IOEVENT_MAX_LEN, a build configuration constant from a header not in the
sources; the spec requires only that it fits the one length byte). -/
def IOEVENT_MAX_LEN : Nat := 64

/-- Modelled from the spec: mask extracting the device type from a tag byte
(EV_TYPE_MASK; the tag byte holds device identity plus event bits). -/
def EV_TYPE_MASK : Nat := 63

/-- The IOEVENTFLAGS_GETTYPE macro: keep only the device-type bits. -/
def IOEVENTFLAGS_GETTYPE (v : Nat) : Nat := v &&& EV_TYPE_MASK

/-- State of the IO event buffer: the byte arena ioBuffer (meaningful on
indices below size, always addressed modulo size), the three indices, and
the sticky error flags word touched by jshIOEventOverflowed. -/
structure IOState where
  size : Nat
  buf : Nat → Nat
  ioHead : Nat
  ioLastHead : Nat
  ioTail : Nat
  err : ErrorFlags

/-- Read one byte of the arena (indices are taken modulo the size, which is
what the power-of-two index mask in the C code does). -/
def IOState.get (q : IOState) (i : Nat) : Nat := q.buf (i % q.size)

/-- Write one byte of the arena; the store is uint8_t so values are
truncated to a byte. -/
def IOState.setByte (q : IOState) (i v : Nat) : IOState :=
  { q with buf := fun j => if j = i % q.size then v % 256 else q.buf j }

/-- jshGetEventsUsed: bytes used in the IO buffer. -/
def jshGetEventsUsed (q : IOState) : Nat := ringUsed q.size q.ioHead q.ioTail

/-- jshGetIOCharEventsFree: free bytes, minus a margin of four spare bytes
(the C computes this in int, so the result is an integer). -/
def jshGetIOCharEventsFree (q : IOState) : Int :=
  ((q.size : Int) - jshGetEventsUsed q) - 4

/-- The byte-writing loop shared by jshPushEvent: write the bytes one after
another, advancing the index modulo the buffer size; returns the state and
the index one past the last byte written. -/
def writeBytes : IOState → Nat → List Nat → IOState × Nat
  | q, idx, [] => (q, idx)
  | q, idx, b :: rest => writeBytes (q.setByte idx b) ((idx + 1) % q.size) rest

/-- jshPushEvent: append one event record (length byte, flags byte, payload)
at ioHead.  If fewer than length plus two bytes are free the event is
dropped, the RX FIFO overflow flag is raised (jshIOEventOverflowed) and
false is returned.  The length is clamped to IOEVENT_MAX_LEN first, as the
C code does after its assert. -/
def jshPushEvent (q : IOState) (evt : Nat) (data : List Nat) : IOState × Bool :=
  let d := data.take IOEVENT_MAX_LEN
  if jshGetIOCharEventsFree q < (d.length : Int) + 2 then
    ({ q with err := { q.err with rxFifoFull := true } }, false)
  else
    let p := writeBytes q q.ioHead (d.length :: evt :: d)
    ({ p.1 with ioLastHead := q.ioHead, ioHead := p.2 }, true)

/-- jshPopIOEvent: remove the oldest event from the tail.  Returns the flags
byte and the payload (the C copies the payload into the callers buffer and
stores the length through a pointer; here the payload list carries both). -/
def jshPopIOEvent (q : IOState) : Option (Nat × List Nat) × IOState :=
  if q.ioHead = q.ioTail then (none, q)
  else
    let q1 := if q.ioLastHead = q.ioTail then { q with ioLastHead := q.ioHead } else q
    let len := q1.get q1.ioTail
    let evt := q1.get (q1.ioTail + 1)
    let data := (List.range len).map (fun i => q1.get (q1.ioTail + 2 + i))
    (some (evt, data), { q1 with ioTail := (q1.ioTail + 2 + len) % q1.size })

/-- The backward compaction loop of jshPopIOEventOfType: copy the byte at
src to dst, stop after copying the byte at ioTail, stepping both indices
backwards one slot at a time.  Returns the final state and the last
destination index, which becomes the new tail.  Fuel exhaustion is
unreachable for well-formed states (the loop stops within size steps). -/
def shiftLoop : IOState → Nat → Nat → Nat → IOState × Nat
  | q, dst, _, 0 => (q, dst)
  | q, dst, src, fuel + 1 =>
    let q1 := q.setByte dst (q.get src)
    if src = q1.ioTail then (q1, dst)
    else shiftLoop q1 ((dst + q.size - 1) % q.size) ((src + q.size - 1) % q.size) fuel

/-- The scan loop of jshPopIOEventOfType: walk the records from the tail,
and on the first record whose type matches, copy the payload out and close
the hole by the backward compaction loop, then move the tail forward past
the removed record and reset ioLastHead to ioHead.  Fuel exhaustion is
unreachable for well-formed states (each step advances at least two bytes). -/
def popOfTypeScan (eventType : Nat) : IOState → Nat → Nat → Option (Nat × List Nat) × IOState
  | q, _, 0 => (none, q)
  | q, i, fuel + 1 =>
    if q.ioHead = i then (none, q)
    else
      let len := q.get i
      let evt := q.get (i + 1)
      if IOEVENTFLAGS_GETTYPE evt = eventType then
        let data := (List.range len).map (fun n => q.get (i + 2 + n))
        let p := shiftLoop q ((i + len + 1) % q.size) ((i + q.size - 1) % q.size) (q.size + 1)
        (some (evt, data), { p.1 with ioTail := p.2, ioLastHead := p.1.ioHead })
      else
        popOfTypeScan eventType q ((i + len + 2) % q.size) fuel

/-- jshPopIOEventOfType. -/
def jshPopIOEventOfType (eventType : Nat) (q : IOState) : Option (Nat × List Nat) × IOState :=
  popOfTypeScan eventType q q.ioTail (q.size + 1)

/-! ## Abstraction of the IO queue -/

/-- The live window of the arena, from the tail to the head. -/
def contents (q : IOState) : List Nat :=
  (List.range (jshGetEventsUsed q)).map (fun j => q.get (q.ioTail + j))

/-- Wire encoding of one event: length byte, flags byte, payload bytes. -/
def encodeEvent (e : Nat × List Nat) : List Nat :=
  e.2.length :: e.1 :: e.2

/-- Wire encoding of a whole event queue, oldest first. -/
def encodeList : List (Nat × List Nat) → List Nat
  | [] => []
  | e :: rest => encodeEvent e ++ encodeList rest

/-- Events whose bytes survive the uint8_t stores unchanged. -/
def EventValid (e : Nat × List Nat) : Prop :=
  e.1 < 256 ∧ e.2.length ≤ IOEVENT_MAX_LEN ∧ ∀ b ∈ e.2, b < 256

/-- Abstraction relation: the concrete ring state represents the given
event list.  Indices are in range, at least four bytes stay spare (the
push-side margin keeps this invariant), and the live window holds exactly
the concatenated encodings. -/
def Abs (q : IOState) (l : List (Nat × List Nat)) : Prop :=
  4 ≤ q.size ∧ q.ioHead < q.size ∧ q.ioTail < q.size ∧ q.ioLastHead < q.size ∧
  jshGetEventsUsed q + 4 ≤ q.size ∧
  contents q = encodeList l ∧
  ∀ e ∈ l, EventValid e

instance decEventValid (e : Nat × List Nat) : Decidable (EventValid e) := by
  unfold EventValid
  infer_instance

instance decAbs (q : IOState) (l : List (Nat × List Nat)) : Decidable (Abs q l) := by
  unfold Abs
  infer_instance

/-- The IO queue as it starts up: all indices zero, arena cleared. -/
def initIOState (size : Nat) : IOState :=
  { size := size, buf := fun _ => 0, ioHead := 0, ioLastHead := 0, ioTail := 0,
    err := { rxFifoFull := false, bufferFull := false } }

/-- What the backward compaction loop achieves when it copies the window of
offsets zero through m (from the tail) forward by D slots: the state is
otherwise untouched, every copied byte lands D slots further (truncated to
a byte by the uint8_t store), and every slot outside the destination window
keeps its old value. -/
def ShiftSpec (q r : IOState) (m D : Nat) : Prop :=
  r.size = q.size ∧ r.ioHead = q.ioHead ∧ r.ioTail = q.ioTail ∧
  r.ioLastHead = q.ioLastHead ∧ r.err = q.err ∧
  (∀ k, k ≤ m → r.get (q.ioTail + D + k) = q.get (q.ioTail + k) % 256) ∧
  (∀ j, (∀ k, k ≤ m → j % q.size ≠ (q.ioTail + D + k) % q.size) → r.get j = q.get j)

/-! ## Traces of push and pop calls -/

/-- One call in a trace against the IO event queue. -/
inductive IOOp where
  | push (evt : Nat) (data : List Nat)
  | pop
deriving DecidableEq, Repr

/-- The result of one call. -/
inductive IORes where
  | pushed (ok : Bool)
  | popped (r : Option (Nat × List Nat))
deriving DecidableEq, Repr

/-- The arguments of a call fit their C types: the tag and the payload bytes
are uint8 values and the payload length is within the fixed maximum. -/
def opValid : IOOp → Bool
  | IOOp.push evt data =>
      decide (evt < 256) && decide (data.length ≤ IOEVENT_MAX_LEN)
        && data.all (fun b => decide (b < 256))
  | IOOp.pop => true

/-- Run a trace of jshPushEvent and jshPopIOEvent calls on the ring. -/
def ioRun : IOState → List IOOp → List IORes × IOState
  | q, [] => ([], q)
  | q, IOOp.push evt data :: ops =>
      let p := jshPushEvent q evt data
      let r := ioRun p.1 ops
      (IORes.pushed p.2 :: r.1, r.2)
  | q, IOOp.pop :: ops =>
      let p := jshPopIOEvent q
      let r := ioRun p.2 ops
      (IORes.popped p.1 :: r.1, r.2)

/-- The same trace run against a plain functional queue: a push appends at
the back and always succeeds, a pop takes the front. -/
def specRun : List (Nat × List Nat) → List IOOp → List IORes × List (Nat × List Nat)
  | l, [] => ([], l)
  | l, IOOp.push evt data :: ops =>
      let r := specRun (l ++ [(evt, data)]) ops
      (IORes.pushed true :: r.1, r.2)
  | l, IOOp.pop :: ops =>
      match l with
      | [] =>
          let r := specRun [] ops
          (IORes.popped none :: r.1, r.2)
      | e :: rest =>
          let r := specRun rest ops
          (IORes.popped (some e) :: r.1, r.2)

/-! ## The idle-loop event drain of jsiIdle (jsinteractive.c)

jsiIdle snapshots maxEvents as jshGetEventsUsed (a byte count) and pops at
most that many events in one pass; the handlers it dispatches to run
outside the modeled core: they may push new events at the back of the
queue, pop further events of the same type from the front (the serial
handler drains consecutive top events), and charge extra decrements
against maxEvents (the serial and bluetooth handlers subtract their
return values).  The handler is therefore an oracle with those three
effects.  The queue itself is the abstract FIFO that the ring buffer
implements (theorem ioRun_sim); each event here carries a ghost flag
telling whether it was in the queue when the pass started. -/

/-- An event in the abstract receive queue, with a ghost origin flag. -/
structure QEvent where
  orig : Bool
  tag : Nat
  data : List Nat
deriving DecidableEq, Repr

/-- Bytes one event occupies in the ring: length byte, tag byte, payload. -/
def eventBytes (e : QEvent) : Nat := e.data.length + 2

/-- jshGetEventsUsed seen through the abstraction: total bytes used. -/
def eventsUsedBytes (q : List QEvent) : Nat := (q.map eventBytes).sum

/-- The out-of-core work done while dispatching one event. -/
structure IdleHandler where
  extraPops : QEvent → List QEvent → Nat
  pushes : QEvent → List QEvent → List QEvent
  cost : QEvent → List QEvent → Nat

/-- The bounded drain loop of jsiIdle: while the budget lasts and the pop
succeeds, pop one event and dispatch it; the handler may pop extra events
from the front, push new ones at the back, and spend extra budget.
Returns the list of popped events and the final queue. -/
def jsiIdleEventLoop (h : IdleHandler) (fuel : Nat) (q : List QEvent) :
    List QEvent × List QEvent :=
  match fuel, q with
  | 0, _ => ([], q)
  | _ + 1, [] => ([], [])
  | f + 1, ev :: rest =>
      let n := h.extraPops ev rest
      let q2 := rest.drop n ++ h.pushes ev rest
      let r := jsiIdleEventLoop h (f - h.cost ev rest) q2
      (ev :: (rest.take n ++ r.1), r.2)
termination_by fuel
decreasing_by omega

/-- One scheduler pass over the event queue: snapshot the byte count used,
then run the bounded drain. -/
def jsiIdlePass (h : IdleHandler) (q : List QEvent) : List QEvent × List QEvent :=
  jsiIdleEventLoop h (eventsUsedBytes q) q

/-! ## Transmit queue and flow control (jsdevices.c)

The transmit buffer txBuffer is a ring of TxBufferItem records (flags byte
naming the destination device, one data byte), written at txHead by
jshTransmit on the main thread and drained at txTail by the per-device
drivers calling jshGetCharToTransmit, usually from an interrupt.  The
per-device flow control state lives in jshSerialDeviceStates.

Device numbering (modelled from the spec; the enum lives in a header not
in the sources): EV_NONE is zero, the two loopback devices and EV_LIMBO
follow, and devices with a serial device state occupy the range from
EV_SERIAL_DEVICE_STATE_START to EV_SERIAL_MAX. -/

def EV_NONE : Nat := 0
def EV_LOOPBACKA : Nat := 1
def EV_LOOPBACKB : Nat := 2
def EV_LIMBO : Nat := 3

def EV_SERIAL_DEVICE_STATE_START : Nat := 4
def EV_SERIAL_MAX : Nat := 11

/-- The DEVICE_HAS_DEVICE_STATE macro. -/
def DEVICE_HAS_DEVICE_STATE (d : Nat) : Bool :=
  decide (EV_SERIAL_DEVICE_STATE_START ≤ d) && decide (d ≤ EV_SERIAL_MAX)

/-- The TO_SERIAL_DEVICE_STATE macro. -/
def TO_SERIAL_DEVICE_STATE (d : Nat) : Nat := d - EV_SERIAL_DEVICE_STATE_START

/-- One JshSerialDeviceState word; each SDS bit is a Boolean field. -/
structure SerialDeviceState where
  xoffPending : Bool
  xonPending : Bool
  xoffSent : Bool
  flowXonXoff : Bool
  errHandling : Bool
deriving DecidableEq, Repr

/-- One TxBufferItem: destination flags and the data byte. -/
structure TxItem where
  flags : Nat
  data : Nat
deriving DecidableEq, Repr

/-- The transmit-side state: the ring, its indices, the per-device serial
state words, CTS pins, the sticky flow-control marker, the console device,
and traces of the external calls (jshUSARTKick, jshPinSetValue) that the
code makes.  The jshInterruptOff and jshInterruptOn brackets of the C code
are atomicity markers with no effect in this sequential model. -/
structure TxState where
  size : Nat
  buf : Nat → TxItem
  txHead : Nat
  txTail : Nat
  deviceStates : Nat → SerialDeviceState
  ctsPins : Nat → Option Nat
  flowControlWasSet : Bool
  console : Nat
  kicks : List Nat
  pinSets : List (Nat × Bool)
  err : ErrorFlags

def TxState.get (q : TxState) (i : Nat) : TxItem := q.buf (i % q.size)

def TxState.set (q : TxState) (i : Nat) (v : TxItem) : TxState :=
  { q with buf := fun j => if j = i % q.size then v else q.buf j }

def updateDevState (q : TxState) (idx : Nat) (f : SerialDeviceState → SerialDeviceState) :
    TxState :=
  { q with deviceStates := fun j => if j = idx then f (q.deviceStates j) else q.deviceStates j }

/-- jshUSARTKick is hardware-facing; the model records the call. -/
def jshUSARTKick (q : TxState) (device : Nat) : TxState :=
  { q with kicks := q.kicks ++ [device] }

/-- The item-shifting loop of jshGetCharToTransmit: while the cursor has
not reached txTail, copy the item one slot behind the cursor onto the
cursor and step backwards.  Fuel exhaustion is unreachable for well-formed
states. -/
def txShiftLoop : TxState → Nat → Nat → TxState
  | q, _, 0 => q
  | q, cur, fuel + 1 =>
    if cur = q.txTail then q
    else
      let last := (cur + q.size - 1) % q.size
      txShiftLoop (q.set cur (q.get last)) last fuel

/-- The scan loop of jshGetCharToTransmit: walk from txTail looking for an
item whose device type matches; found items not at the very tail first
shift all earlier items one slot toward the tail, then the tail advances.
Fuel exhaustion is unreachable for well-formed states. -/
def txScan (device : Nat) : TxState → Nat → Nat → Option Nat × TxState
  | q, _, 0 => (none, q)
  | q, tempTail, fuel + 1 =>
    if q.txHead = tempTail then (none, q)
    else if IOEVENTFLAGS_GETTYPE (q.get tempTail).flags = device then
      let data := (q.get tempTail).data
      let q1 := if ¬ tempTail = q.txTail then txShiftLoop q tempTail (q.size + 1) else q
      (some data, { q1 with txTail := (q1.txTail + 1) % q1.size })
    else
      txScan device q ((tempTail + 1) % q.size) fuel

/-- jshGetCharToTransmit: a pending XOFF or XON control byte is delivered
before any data byte (19 is XOFF, 17 is XON), updating the device state
word exactly as the C does; otherwise the ring is scanned for this
device.  None stands for the C return value minus one. -/
def jshGetCharToTransmit (device : Nat) (q : TxState) : Option Nat × TxState :=
  if DEVICE_HAS_DEVICE_STATE device then
    let st := q.deviceStates (TO_SERIAL_DEVICE_STATE device)
    if st.xoffPending then
      (some 19, updateDevState q (TO_SERIAL_DEVICE_STATE device)
        (fun s => { s with xoffPending := false, xoffSent := true }))
    else if st.xonPending then
      (some 17, updateDevState q (TO_SERIAL_DEVICE_STATE device)
        (fun s => { s with xonPending := false, xoffSent := false }))
    else txScan device q q.txTail (q.size + 1)
  else txScan device q q.txTail (q.size + 1)

/-- jshSetFlowControlXON. -/
def jshSetFlowControlXON (q : TxState) (device : Nat) (hostShouldTransmit : Bool) : TxState :=
  if DEVICE_HAS_DEVICE_STATE device then
    let q := if !hostShouldTransmit then { q with flowControlWasSet := true } else q
    let devIdx := TO_SERIAL_DEVICE_STATE device
    let st := q.deviceStates devIdx
    let q :=
      if st.flowXonXoff then
        if hostShouldTransmit then
          if st.xoffSent && !st.xonPending then
            jshUSARTKick (updateDevState q devIdx (fun s => { s with xonPending := true })) device
          else q
        else
          if !st.xoffSent && !st.xoffPending then
            jshUSARTKick (updateDevState q devIdx (fun s => { s with xoffPending := true })) device
          else q
      else q
    match q.ctsPins devIdx with
    | some pin => { q with pinSets := q.pinSets ++ [(pin, !hostShouldTransmit)] }
    | none => q
  else q

/-- Storing the item and advancing txHead (the last lines of jshTransmit):
the slot at the current txHead receives the device and data, txHead takes
the precomputed txHeadNext value, and jshUSARTKick is called. -/
def txStore (q : TxState) (hn dev data : Nat) : TxState :=
  jshUSARTKick { q.set q.txHead ⟨dev, data⟩ with txHead := hn } dev

/-- Outcome of the busy-wait of jshTransmit: the byte was dropped from
interrupt context with the error flag raised, space was found, or the fuel
ran out (the C loops forever if space never frees). -/
inductive WaitRes where
  | dropped (q : TxState)
  | ready (q : TxState)
  | starved

/-- The busy-wait loop of jshTransmit: while the precomputed txHeadNext
still equals txTail the buffer is full; a caller in interrupt context
raises JSERR_BUFFER_FULL and returns at once, any other caller invokes the
platform idle routine (the idleStep oracle, standing for jshBusyIdle plus
whatever the interrupt-side consumer does meanwhile) and spins. -/
def txWaitLoop (idleStep : TxState → TxState) (hn : Nat) (inInterrupt : Bool) :
    TxState → Nat → WaitRes
  | _, 0 => WaitRes.starved
  | q, fuel + 1 =>
    if hn = q.txTail then
      if inInterrupt then
        WaitRes.dropped { q with err := { q.err with bufferFull := true } }
      else
        txWaitLoop idleStep hn inInterrupt (idleStep q) fuel
    else WaitRes.ready q

/-- What one jshTransmit call did.  A loopback device re-injects the byte
as a character event on its paired device (jshPushIOCharEvent, which lives
on the receive side); EV_NONE discards the byte. -/
inductive TxResult where
  | loopback (device ch : Nat)
  | discarded
  | sent (q : TxState)
  | droppedIRQFull (q : TxState)
  | starved

/-- jshTransmit.  The build modelled here has no USB, Bluetooth, telnet or
terminal devices, so only the loopback and EV_NONE special cases remain
before the ring logic.  txHeadNext is computed once, as in the C.  The
wasConsoleLimbo test redirects the write to the new console device if the
console moved away from EV_LIMBO while the call was blocked; the C only
computes the flag when the buffer was initially full, but when it was not
the redirect condition is vacuously false here, so hoisting it is
behaviour-preserving.  The jsiSetBusy calls are progress indication with
no effect on this state. -/
def jshTransmit (idleStep : TxState → TxState) (device data : Nat) (inInterrupt : Bool)
    (q : TxState) (fuel : Nat) : TxResult :=
  if device = EV_LOOPBACKA ∨ device = EV_LOOPBACKB then
    TxResult.loopback (if device = EV_LOOPBACKB then EV_LOOPBACKA else EV_LOOPBACKB) data
  else if device = EV_NONE then
    TxResult.discarded
  else
    let hn := (q.txHead + 1) % q.size
    let wasConsoleLimbo := decide (device = EV_LIMBO) && decide (q.console = EV_LIMBO)
    match txWaitLoop idleStep hn inInterrupt q fuel with
    | WaitRes.starved => TxResult.starved
    | WaitRes.dropped q1 => TxResult.droppedIRQFull q1
    | WaitRes.ready q1 =>
      let dev := if wasConsoleLimbo ∧ ¬ q1.console = EV_LIMBO then q1.console else device
      TxResult.sent (txStore q1 hn dev data)

/-- Items used in the transmit ring. -/
def txUsed (q : TxState) : Nat := ringUsed q.size q.txHead q.txTail

/-- The live window of the transmit ring, oldest first. -/
def txContents (q : TxState) : List TxItem :=
  (List.range (txUsed q)).map (fun j => q.get (q.txTail + j))

/-- The transmit side at startup. -/
def initTxState (size : Nat) : TxState :=
  { size := size, buf := fun _ => ⟨0, 0⟩, txHead := 0, txTail := 0,
    deviceStates := fun _ => ⟨false, false, false, false, false⟩,
    ctsPins := fun _ => none, flowControlWasSet := false, console := 0,
    kicks := [], pinSets := [], err := ⟨false, false⟩ }

/-- Run a sequence of jshTransmit calls, requiring each to enqueue. -/
def runTxList (idleStep : TxState → TxState) (inInterrupt : Bool) :
    TxState → List (Nat × Nat) → Option TxState
  | q, [] => some q
  | q, x :: xs =>
    match jshTransmit idleStep x.1 x.2 inInterrupt q 1 with
    | TxResult.sent q1 => runTxList idleStep inInterrupt q1 xs
    | _ => none

/-- Repeatedly call jshGetCharToTransmit for one device until it reports
no data, collecting the returned bytes. -/
def txDrain (device : Nat) : TxState → Nat → List Nat
  | _, 0 => []
  | q, fuel + 1 =>
    match jshGetCharToTransmit device q with
    | (none, _) => []
    | (some c, q1) => c :: txDrain device q1 fuel

/-- Abstraction relation for the transmit ring. -/
def TxAbs (q : TxState) (l : List TxItem) : Prop :=
  4 ≤ q.size ∧ q.txHead < q.size ∧ q.txTail < q.size ∧ txUsed q + 1 ≤ q.size ∧
  txContents q = l

/-- The scan of jshGetCharToTransmit never delivers a pending flow-control
byte, so it only matters that none is pending for the drained device. -/
def txNoPending (device : Nat) (q : TxState) : Prop :=
  (q.deviceStates (TO_SERIAL_DEVICE_STATE device)).xoffPending = false ∧
  (q.deviceStates (TO_SERIAL_DEVICE_STATE device)).xonPending = false

/-! ## Console input state machine (jsinteractive.c)

The console character handler jsiHandleConsoleChar drives an InputState
enum.  The model tracks the fields the packet-transfer logic reads and
writes: inputState, inputPacketLength, inputStateNumber, the inputLine
byte string with its cached length inputLineLength (-1 when the string
iterator has been freed by jsiInputLineCursorMoved), the PK_IL checkpoint
and PK_TIMEOUT timeout stored on hiddenRoot (the timeout is recorded as
the armed duration in milliseconds, as passed to jsiSetTimeout), the
JSIS_ECHO_OFF_FOR_LINE status bit, the EXEC_CTRL_C interrupt flag of
execInfo.execute (one Boolean standing for the EXEC_CTRL_C_MASK bits),
a trace of control characters printed with jsiConsolePrintChar by the
packet logic, and a trace of processed packets.  Line editing, history,
cursor movement and the interpreter dispatch inside jsiPacketProcess act
on state outside this model; the parts of them that could touch the
input line are an explicit oracle (EditOracle), pure cursor movement and
console printing are identities here, and the password-protected branch
is not modelled (no password set). -/

def IPS_NONE : Nat := 0
def IPS_HAD_R : Nat := 1
def IPS_PACKET_TRANSFER_BYTE0 : Nat := 2
def IPS_PACKET_TRANSFER_BYTE1 : Nat := 3
def IPS_PACKET_TRANSFER_DATA : Nat := 4
def IPS_HAD_DLE : Nat := 5
def IPS_HAD_27 : Nat := 6
def IPS_HAD_27_79 : Nat := 7
def IPS_HAD_27_91 : Nat := 8
def IPS_HAD_27_91_NUMBER : Nat := 9

/-- The IS_PACKET_TRANSFER macro. -/
def IS_PACKET_TRANSFER (state : Nat) : Bool :=
  decide (IPS_PACKET_TRANSFER_BYTE0 ≤ state) && decide (state ≤ IPS_PACKET_TRANSFER_DATA)

def PT_SIZE_MASK : Nat := 0x1FFF
def PT_TYPE_MASK : Nat := 0xE000
def PT_TYPE_RESPONSE : Nat := 0x0000
def PT_TYPE_EVAL : Nat := 0x2000
def PT_TYPE_EVENT : Nat := 0x4000
def PT_TYPE_FILE_SEND : Nat := 0x6000
def PT_TYPE_DATA : Nat := 0x8000
def PT_TYPE_FILE_RECV : Nat := 0xA000

def ASCII_ACK : Nat := 6
def ASCII_NAK : Nat := 21
def ASCII_DLE : Nat := 16
def ASCII_SOH : Nat := 1

structure ConsoleState where
  inputState : Nat
  inputPacketLength : Nat
  inputStateNumber : Nat
  inputLine : List Nat
  inputLineLength : Int
  savedInputLine : Option (List Nat)
  packetTimeout : Option Nat
  echoOffForLine : Bool
  execCtrlC : Bool
  sent : List Nat
  processed : List (Nat × Nat × List Nat)
deriving DecidableEq

/-- The line-editing and interpreter operations reachable from
jsiHandleConsoleChar that act on untracked state but may also touch the
input line: jsiHandleNewLine, jsiHandleDelete, the up and down history
or multi-line cursor movement, page up and down, jsiClearInputLine, tab
handling (jsiTabComplete or the four-space append, depending on echo),
and jsiAppendStringToInputLine (which inserts at the untracked cursor
position). -/
structure EditOracle where
  newLine : Bool → ConsoleState → ConsoleState
  delete : Bool → ConsoleState → ConsoleState
  upDown : Bool → ConsoleState → ConsoleState
  pageUpDown : Nat → ConsoleState → ConsoleState
  clearInputLine : Bool → ConsoleState → ConsoleState
  tab : ConsoleState → ConsoleState
  appendString : List Nat → ConsoleState → ConsoleState

/-- jsiInputLineCursorMoved frees the string iterator and invalidates the
cached length. -/
def jsiInputLineCursorMoved (c : ConsoleState) : ConsoleState :=
  { c with inputLineLength := -1 }

/-- jsiAppendToInputLine: recreate the iterator (recomputing the cached
length) if it was freed, then append the character and bump the length. -/
def jsiAppendToInputLine (ch : Nat) (c : ConsoleState) : ConsoleState :=
  let ill := if c.inputLineLength < 0 then (c.inputLine.length : Int) else c.inputLineLength
  { c with inputLine := c.inputLine ++ [ch % 256], inputLineLength := ill + 1 }

/-- jsiPacketExit: back to IPS_NONE, length cleared, PK_TIMEOUT cancelled
and removed, the input line restored from the PK_IL checkpoint (NULL when
none was stored, modelled as the empty string) which is then removed. -/
def jsiPacketExit (c : ConsoleState) : ConsoleState :=
  let c1 := { c with inputState := IPS_NONE, inputPacketLength := 0, packetTimeout := none }
  let c2 := jsiInputLineCursorMoved c1
  { c2 with
    inputLine := (match c2.savedInputLine with | some l => l | none => []),
    savedInputLine := none }

/-- jsiPacketTimeoutHandler: print NAK on the console and abort the
packet. -/
def jsiPacketTimeoutHandler (c : ConsoleState) : ConsoleState :=
  jsiPacketExit { c with sent := c.sent ++ [ASCII_NAK] }

/-- jsiPacketStart: enter IPS_PACKET_TRANSFER_BYTE0, check the input line
aside as PK_IL, arm the PK_TIMEOUT timeout with jsiSetTimeout(handler,
5000), and begin a fresh empty input line. -/
def jsiPacketStart (c : ConsoleState) : ConsoleState :=
  let c1 := { c with inputState := IPS_PACKET_TRANSFER_BYTE0 }
  let c2 := jsiInputLineCursorMoved c1
  { c2 with
    savedInputLine := some c2.inputLine,
    packetTimeout := some 5000,
    inputLine := [] }

/-- jsiPacketProcess: split inputPacketLength into its type bits and its
size bits and dispatch on the type.  The dispatch itself (evaluation,
events, file transfer, their ACK and NAK responses) acts on interpreter
state outside this model and is recorded in the processed trace; every
path then leaves packet mode through jsiPacketExit, as in the C. -/
def jsiPacketProcess (c : ConsoleState) : ConsoleState :=
  jsiPacketExit { c with
    processed := c.processed ++ [(c.inputPacketLength &&& PT_TYPE_MASK,
      c.inputPacketLength &&& PT_SIZE_MASK, c.inputLine)],
    inputPacketLength := c.inputPacketLength &&& PT_SIZE_MASK }

/-- jsiCtrlC: during a packet transfer (or when password protected, not
modelled) the interrupt flag is not raised. -/
def jsiCtrlC (c : ConsoleState) : ConsoleState :=
  if IS_PACKET_TRANSFER c.inputState then c
  else { c with execCtrlC := true }

/-- jsiHandleConsoleChar.  The fuel bounds the self-calls of the
IPS_HAD_27_79 numpad branch, which remap the character and recurse once;
fuel 2 therefore always suffices and exhaustion is unreachable from the
top-level entry.  Branches that only move the cursor, print, or show the
version are identities on the tracked state; handlers that can touch the
input line go through the oracle. -/
def jsiHandleConsoleChar (o : EditOracle) : Nat → Nat → ConsoleState → ConsoleState
  | 0, _, c => c
  | fuel + 1, ch, c0 =>
    let c := if ch = 3 ∧ IS_PACKET_TRANSFER c0.inputState then { c0 with execCtrlC := false }
      else c0
    if c.inputState = IPS_PACKET_TRANSFER_BYTE0 then
      let c := if c.inputLine = [] then { c with echoOffForLine := false } else c
      { c with inputPacketLength := (ch % 256) <<< 8,
               inputState := IPS_PACKET_TRANSFER_BYTE1 }
    else if c.inputState = IPS_PACKET_TRANSFER_BYTE1 then
      let c := { c with inputPacketLength := c.inputPacketLength ||| (ch % 256) }
      if c.inputPacketLength &&& PT_SIZE_MASK = 0 then jsiPacketProcess c
      else { c with inputState := IPS_PACKET_TRANSFER_DATA }
    else if c.inputState = IPS_PACKET_TRANSFER_DATA then
      let c := jsiAppendToInputLine ch c
      if ((c.inputPacketLength &&& PT_SIZE_MASK : Nat) : Int) ≤ c.inputLineLength then
        jsiPacketProcess c
      else c
    else if ch = 0 then { c with inputState := IPS_NONE }
    else if ch = 1 then
      if c.inputState = IPS_HAD_DLE then jsiPacketStart c else c
    else if ch = 3 then c
    else if ch = 5 then c
    else if ch = 16 then
      let c := if c.inputLine = [] then { c with echoOffForLine := true } else c
      { c with inputState := IPS_HAD_DLE }
    else if ch = 27 then { c with inputState := IPS_HAD_27 }
    else if c.inputState = IPS_HAD_27 then
      let c := { c with inputState := IPS_NONE }
      if ch = 79 then { c with inputState := IPS_HAD_27_79 }
      else if ch = 91 then { c with inputState := IPS_HAD_27_91 }
      else if ch = 10 then o.newLine false c
      else c
    else if c.inputState = IPS_HAD_27_79 then
      let c := { c with inputState := IPS_NONE }
      if ch = 70 then c
      else if ch = 72 then c
      else if ch = 111 then jsiHandleConsoleChar o fuel 47 c
      else if ch = 106 then jsiHandleConsoleChar o fuel 42 c
      else if ch = 109 then jsiHandleConsoleChar o fuel 45 c
      else if ch = 107 then jsiHandleConsoleChar o fuel 43 c
      else if ch = 77 then jsiHandleConsoleChar o fuel 13 c
      else c
    else if c.inputState = IPS_HAD_27_91 then
      let c := { c with inputState := IPS_NONE }
      if 48 ≤ ch ∧ ch ≤ 57 then
        { c with inputStateNumber := ch - 48, inputState := IPS_HAD_27_91_NUMBER }
      else if ch = 68 then c
      else if ch = 67 then c
      else if ch = 65 then o.upDown true c
      else if ch = 66 then o.upDown false c
      else if ch = 70 then c
      else if ch = 72 then c
      else c
    else if c.inputState = IPS_HAD_27_91_NUMBER then
      if 48 ≤ ch ∧ ch ≤ 57 then
        { c with inputStateNumber := (10 * c.inputStateNumber + ch - 48) % 65536 }
      else
        let c2 :=
          if ch = 72 then
            (if c.inputStateNumber = 2 then o.clearInputLine true c else c)
          else if ch = 126 then
            (if c.inputStateNumber = 1 then c
             else if c.inputStateNumber = 3 then o.delete false c
             else if c.inputStateNumber = 4 then c
             else if c.inputStateNumber = 5 then o.pageUpDown 0 c
             else if c.inputStateNumber = 6 then o.pageUpDown 1 c
             else c)
          else c
        { c2 with inputState := IPS_NONE }
    else
      let c := { c with inputState := IPS_NONE }
      if ch = 8 ∨ ch = 127 then o.delete true c
      else if ch = 10 ∧ c.inputState = IPS_HAD_R then { c with inputState := IPS_NONE }
      else if ch = 13 ∨ ch = 10 then
        let c := if ch = 13 then { c with inputState := IPS_HAD_R } else c
        o.newLine true c
      else if ch = 9 then o.tab c
      else if 32 ≤ ch % 256 then o.appendString [ch] c
      else c

/-- Feeding a byte sequence to the console handler. -/
def runConsole (o : EditOracle) (c : ConsoleState) (bs : List Nat) : ConsoleState :=
  bs.foldl (fun s ch => jsiHandleConsoleChar o 2 ch s) c

/-- The console state at startup: idle, empty line, no iterator. -/
def initConsole : ConsoleState :=
  { inputState := IPS_NONE, inputPacketLength := 0, inputStateNumber := 0, inputLine := [],
    inputLineLength := -1, savedInputLine := none, packetTimeout := none,
    echoOffForLine := false, execCtrlC := false, sent := [], processed := [] }

/-- An oracle whose operations all leave the state unchanged, for running
the handler on concrete byte streams that never reach them. -/
def idOracle : EditOracle :=
  ⟨fun _ c => c, fun _ c => c, fun _ c => c, fun _ c => c, fun _ c => c, fun c => c,
   fun _ c => c⟩

/-- A console state in the middle of a packet body with a latched Ctrl-C
flag: an Eval packet of declared length 2 with no payload bytes yet. -/
def packetExample : ConsoleState :=
  { initConsole with
    inputState := IPS_PACKET_TRANSFER_DATA, execCtrlC := true,
    inputPacketLength := 0x2002, savedInputLine := some [] }

/-- The serial device state of a device, as jshSerialDeviceStates is
indexed in the C. -/
def sds (q : TxState) (device : Nat) : SerialDeviceState :=
  q.deviceStates (TO_SERIAL_DEVICE_STATE device)

/-- A concrete transmit state whose ring is full: head one short of tail. -/
def txFullExample : TxState := { initTxState 4 with txHead := 3 }

/-- A concrete idle step that drains one item from the transmit ring,
standing for the interrupt-side consumer running while the main thread
busy-waits. -/
def txDrainStep (s : TxState) : TxState := { s with txTail := (s.txTail + 1) % s.size }

/-- A concrete transmit state with software flow control enabled and an
XOFF pending on serial device 0 (reachable through device EV_SERIAL_DEVICE_STATE_START). -/
def txFlowExample : TxState :=
  { initTxState 8 with
    deviceStates := fun j =>
      if j = 0 then ⟨true, false, false, true, false⟩
      else ⟨false, false, false, false, false⟩ }

/-- What the item-shifting loop of jshGetCharToTransmit does: every slot
from one past the tail up to offset m holds what was one slot before it,
slots outside that window and the indices and device states are untouched. -/
def TxShiftSpec (q r : TxState) (m : Nat) : Prop :=
  r.size = q.size ∧ r.txHead = q.txHead ∧ r.txTail = q.txTail ∧
  r.deviceStates = q.deviceStates ∧
  (∀ k, 1 ≤ k → k ≤ m → r.get (q.txTail + k) = q.get (q.txTail + k - 1)) ∧
  (∀ j, (∀ k, k ≤ m → ¬ j % q.size = (q.txTail + k) % q.size) →
    r.buf (j % q.size) = q.buf (j % q.size))

/-! ## List helpers -/

theorem ringUsed_head_eq {size head tail : Nat} (hh : head < size) (ht : tail < size) :
    head = (tail + ringUsed size head tail) % size := by
  unfold ringUsed
  by_cases h : tail ≤ head
  · simp only [if_pos h]
    rw [Nat.add_sub_cancel' h, Nat.mod_eq_of_lt hh]
  · simp only [if_neg h]
    have h2 : tail + (head + size - tail) = head + size := by omega
    rw [h2, Nat.add_mod_right, Nat.mod_eq_of_lt hh]

theorem ringUsed_of_head {size head tail u : Nat} (ht : tail < size) (hu : u < size)
    (hhead : head = (tail + u) % size) : ringUsed size head tail = u := by
  subst hhead
  unfold ringUsed
  rcases Nat.lt_or_ge (tail + u) size with h | h
  · rw [Nat.mod_eq_of_lt h]
    have : tail ≤ tail + u := Nat.le_add_right _ _
    simp only [if_pos this]
    omega
  · have hlt : tail + u - size < size := by omega
    have hmod : (tail + u) % size = tail + u - size := by
      rw [Nat.mod_eq_sub_mod h, Nat.mod_eq_of_lt hlt]
    rw [hmod]
    have hnot : ¬ (tail ≤ tail + u - size) := by omega
    simp only [if_neg hnot]
    omega

/-- Adding equal offsets below the buffer size to a common base lands on the
same slot only for equal offsets. -/
theorem ring_offset_inj {n a b t : Nat} (ha : a < n) (hb : b < n)
    (h : (t + a) % n = (t + b) % n) : a = b := by
  have h1 : Nat.ModEq n (t + a) (t + b) := h
  have h2 : Nat.ModEq n a b := Nat.ModEq.add_left_cancel' t h1
  calc a = a % n := (Nat.mod_eq_of_lt ha).symm
    _ = b % n := h2
    _ = b := Nat.mod_eq_of_lt hb

theorem ring_offset_ne {n a b t : Nat} (ha : a < n) (hb : b < n) (hab : a ≠ b) :
    (t + a) % n ≠ (t + b) % n := fun h => hab (ring_offset_inj ha hb h)

theorem mod_add_cancel {x y n : Nat} : (x % n + y) % n = (x + y) % n :=
  Nat.mod_add_mod x n y

/-- Stepping one slot backwards: adding size minus one and reducing. -/
theorem ring_pred_mod {x n : Nat} (hn : 0 < n) :
    (x % n + n - 1) % n = (x + (n - 1)) % n := by
  have h1 : x % n + n - 1 = x % n + (n - 1) := by omega
  rw [h1, Nat.mod_add_mod]

theorem encodeList_cons (e : Nat × List Nat) (rest : List (Nat × List Nat)) :
    encodeList (e :: rest) = encodeEvent e ++ encodeList rest := rfl

theorem map_range_getD {α : Type} (L : List α) (d : α) :
    (List.range L.length).map (fun i => L.getD i d) = L := by
  induction L with
  | nil => simp
  | cons a t ih =>
    rw [List.length_cons, List.range_succ_eq_map, List.map_cons, List.map_map]
    simp only [Function.comp_def, List.getD_cons_zero, List.getD_cons_succ]
    rw [ih]

theorem encodeList_append (l1 l2 : List (Nat × List Nat)) :
    encodeList (l1 ++ l2) = encodeList l1 ++ encodeList l2 := by
  induction l1 with
  | nil => simp [encodeList]
  | cons e t ih => simp [encodeList, ih]

theorem encodeEvent_length (e : Nat × List Nat) :
    (encodeEvent e).length = e.2.length + 2 := by
  simp [encodeEvent]

theorem getD_append_left {α : Type} (l1 l2 : List α) (d : α) (i : Nat) (h : i < l1.length) :
    (l1 ++ l2).getD i d = l1.getD i d := by
  induction l1 generalizing i with
  | nil => simp at h
  | cons a t ih =>
    rcases i with _ | i
    · simp
    · simp only [List.cons_append, List.getD_cons_succ]
      exact ih i (by simpa using h)

theorem getD_append_right {α : Type} (l1 l2 : List α) (d : α) (i : Nat) (h : l1.length ≤ i) :
    (l1 ++ l2).getD i d = l2.getD (i - l1.length) d := by
  induction l1 generalizing i with
  | nil => simp
  | cons a t ih =>
    rcases i with _ | i
    · simp at h
    · simp only [List.cons_append, List.getD_cons_succ, List.length_cons]
      rw [ih i (by simpa using h)]
      congr 1
      omega

theorem ext_getD {α : Type} (l1 l2 : List α) (d : α) (hlen : l1.length = l2.length)
    (h : ∀ i < l1.length, l1.getD i d = l2.getD i d) : l1 = l2 := by
  apply List.ext_getElem hlen
  intro i h1 h2
  have := h i h1
  rwa [List.getD_eq_getElem _ _ h1, List.getD_eq_getElem _ _ h2] at this

/-! ## Basic facts about the IO primitives -/

@[simp] theorem setByte_size (q : IOState) (i v : Nat) : (q.setByte i v).size = q.size := rfl
@[simp] theorem setByte_ioHead (q : IOState) (i v : Nat) :
    (q.setByte i v).ioHead = q.ioHead := rfl
@[simp] theorem setByte_ioTail (q : IOState) (i v : Nat) :
    (q.setByte i v).ioTail = q.ioTail := rfl
@[simp] theorem setByte_ioLastHead (q : IOState) (i v : Nat) :
    (q.setByte i v).ioLastHead = q.ioLastHead := rfl
@[simp] theorem setByte_err (q : IOState) (i v : Nat) : (q.setByte i v).err = q.err := rfl

theorem get_setByte (q : IOState) (i v j : Nat) :
    (q.setByte i v).get j = if j % q.size = i % q.size then v % 256 else q.get j := rfl

theorem get_congr (q : IOState) {a b : Nat} (h : a % q.size = b % q.size) :
    q.get a = q.get b := by
  simp only [IOState.get, h]

theorem contents_length (q : IOState) : (contents q).length = jshGetEventsUsed q := by
  simp [contents]

theorem contents_getD (q : IOState) (j : Nat) (hj : j < jshGetEventsUsed q) :
    q.get (q.ioTail + j) = (contents q).getD j 0 := by
  simp only [contents]
  rw [List.getD_eq_getElem _ _ (by simpa using hj)]
  simp

theorem writeBytes_pres (bs : List Nat) (q : IOState) (idx : Nat) :
    (writeBytes q idx bs).1.size = q.size ∧
    (writeBytes q idx bs).1.ioHead = q.ioHead ∧
    (writeBytes q idx bs).1.ioTail = q.ioTail ∧
    (writeBytes q idx bs).1.ioLastHead = q.ioLastHead ∧
    (writeBytes q idx bs).1.err = q.err := by
  induction bs generalizing q idx with
  | nil => simp [writeBytes]
  | cons b rest ih =>
    simpa using ih (q.setByte idx b) ((idx + 1) % q.size)

@[simp] theorem writeBytes_size (bs : List Nat) (q : IOState) (idx : Nat) :
    (writeBytes q idx bs).1.size = q.size := (writeBytes_pres bs q idx).1

@[simp] theorem writeBytes_ioHead (bs : List Nat) (q : IOState) (idx : Nat) :
    (writeBytes q idx bs).1.ioHead = q.ioHead := (writeBytes_pres bs q idx).2.1

@[simp] theorem writeBytes_ioTail (bs : List Nat) (q : IOState) (idx : Nat) :
    (writeBytes q idx bs).1.ioTail = q.ioTail := (writeBytes_pres bs q idx).2.2.1

@[simp] theorem writeBytes_ioLastHead (bs : List Nat) (q : IOState) (idx : Nat) :
    (writeBytes q idx bs).1.ioLastHead = q.ioLastHead := (writeBytes_pres bs q idx).2.2.2.1

@[simp] theorem writeBytes_err (bs : List Nat) (q : IOState) (idx : Nat) :
    (writeBytes q idx bs).1.err = q.err := (writeBytes_pres bs q idx).2.2.2.2

theorem writeBytes_idx (bs : List Nat) (q : IOState) (idx : Nat) (h : bs ≠ []) :
    (writeBytes q idx bs).2 = (idx + bs.length) % q.size := by
  induction bs generalizing q idx with
  | nil => exact absurd rfl h
  | cons b rest ih =>
    show (writeBytes (q.setByte idx b) ((idx + 1) % q.size) rest).2 = _
    rcases rest with _ | ⟨c, rest2⟩
    · simp [writeBytes]
    · rw [ih (q.setByte idx b) ((idx + 1) % q.size) (by simp)]
      rw [setByte_size, mod_add_cancel]
      congr 1
      simp only [List.length_cons]
      omega

theorem writeBytes_get_outside (bs : List Nat) (q : IOState) (idx j : Nat)
    (h : ∀ k < bs.length, j % q.size ≠ (idx + k) % q.size) :
    (writeBytes q idx bs).1.get j = q.get j := by
  induction bs generalizing q idx with
  | nil => rfl
  | cons b rest ih =>
    show (writeBytes (q.setByte idx b) ((idx + 1) % q.size) rest).1.get j = _
    rw [ih (q.setByte idx b) ((idx + 1) % q.size) ?hrest]
    · rw [get_setByte]
      have h0 := h 0 (by simp)
      simp only [Nat.add_zero] at h0
      simp [if_neg h0]
    case hrest =>
      intro k hk
      rw [setByte_size, mod_add_cancel, Nat.add_assoc]
      exact h (1 + k) (by simp only [List.length_cons]; omega)

theorem writeBytes_get_inside (bs : List Nat) (q : IOState) (idx : Nat)
    (hlen : bs.length ≤ q.size) (k : Nat) (hk : k < bs.length) :
    (writeBytes q idx bs).1.get (idx + k) = bs.getD k 0 % 256 := by
  induction bs generalizing q idx k with
  | nil => exact absurd hk (by simp)
  | cons b rest ih =>
    have hsize : 0 < q.size := lt_of_lt_of_le (by omega) hlen
    show (writeBytes (q.setByte idx b) ((idx + 1) % q.size) rest).1.get (idx + k) = _
    rcases k with _ | k
    · rw [writeBytes_get_outside rest (q.setByte idx b) ((idx + 1) % q.size) (idx + 0) ?hout]
      · rw [get_setByte]
        simp
      case hout =>
        intro k2 hk2
        rw [setByte_size, mod_add_cancel, Nat.add_assoc]
        have h1 : 1 + k2 < q.size := by
          simp only [List.length_cons] at hlen
          omega
        exact ring_offset_ne (t := idx) (n := q.size) hsize h1 (by omega)
    · have hs : (writeBytes (q.setByte idx b) ((idx + 1) % q.size) rest).1.size = q.size := by
        simp
      rw [get_congr _ (a := idx + (k + 1)) (b := (idx + 1) % q.size + k)
        (by rw [hs, mod_add_cancel]; congr 1; omega)]
      have := ih (q.setByte idx b) ((idx + 1) % q.size)
        (by rw [setByte_size]; simp only [List.length_cons] at hlen; omega) k
        (by simp only [List.length_cons] at hk; omega)
      simpa using this

/-! ## Refinement of jshPushEvent -/

/-- A successful push appends the encoding of the new event to the live
window and leaves everything else (including the error flags) alone.  The
success condition is the free-space check of the C code, rewritten over
naturals: used plus payload plus six is at most the buffer size. -/
theorem push_spec (q : IOState) (l : List (Nat × List Nat)) (evt : Nat) (data : List Nat)
    (hA : Abs q l) (hev : EventValid (evt, data))
    (hfree : jshGetEventsUsed q + data.length + 6 ≤ q.size) :
    (jshPushEvent q evt data).2 = true ∧
    Abs (jshPushEvent q evt data).1 (l ++ [(evt, data)]) ∧
    (jshPushEvent q evt data).1.err = q.err := by
  obtain ⟨hs4, hh, ht, hlh, hu4, hc, hv⟩ := hA
  obtain ⟨hev1, hev2, hev3⟩ := hev
  have hsize : 0 < q.size := by omega
  have hd : data.take IOEVENT_MAX_LEN = data := List.take_of_length_le hev2
  have hL256 : data.length < 256 := by
    have := hev2
    simp only [IOEVENT_MAX_LEN] at this
    omega
  have hcond : ¬ (jshGetIOCharEventsFree q < (data.length : Int) + 2) := by
    simp only [jshGetIOCharEventsFree]
    omega
  have hql : jshPushEvent q evt data
      = ({ (writeBytes q q.ioHead (data.length :: evt :: data)).1 with
            ioLastHead := q.ioHead,
            ioHead := (writeBytes q q.ioHead (data.length :: evt :: data)).2 }, true) := by
    simp only [jshPushEvent, hd]
    rw [if_neg hcond]
  set u := jshGetEventsUsed q with hu
  set bs : List Nat := data.length :: evt :: data with hbs
  have hbslen : bs.length = data.length + 2 := by simp [hbs]
  have hheadEq : q.ioHead = (q.ioTail + u) % q.size := ringUsed_head_eq hh ht
  have hW2 : (writeBytes q q.ioHead bs).2 = (q.ioTail + (u + (data.length + 2))) % q.size := by
    rw [writeBytes_idx bs q q.ioHead (by simp [hbs]), hbslen, hheadEq, mod_add_cancel]
    congr 1
    omega
  -- every byte of the new record, after the uint8_t store, is the byte itself
  have hbyte : ∀ m < data.length + 2, bs.getD m 0 % 256 = bs.getD m 0 := by
    intro m hm
    match m with
    | 0 => simp only [hbs, List.getD_cons_zero]; omega
    | 1 => simp only [hbs, List.getD_cons_succ, List.getD_cons_zero]; omega
    | (m + 2) =>
      simp only [hbs, List.getD_cons_succ]
      have hmlt : m < data.length := by omega
      rw [List.getD_eq_getElem _ _ hmlt]
      have hmem := List.getElem_mem (l := data) (h := hmlt)
      exact Nat.mod_eq_of_lt (hev3 _ hmem)
  -- projections of the pushed state
  have hpsize : (jshPushEvent q evt data).1.size = q.size := by rw [hql]; simp
  have hptail : (jshPushEvent q evt data).1.ioTail = q.ioTail := by rw [hql]; simp
  have hphead : (jshPushEvent q evt data).1.ioHead = (writeBytes q q.ioHead bs).2 := by
    rw [hql]
  have hplast : (jshPushEvent q evt data).1.ioLastHead = q.ioHead := by rw [hql]
  have hperr : (jshPushEvent q evt data).1.err = q.err := by rw [hql]; simp
  have hpsnd : (jshPushEvent q evt data).2 = true := by rw [hql]
  have hpget : ∀ x, (jshPushEvent q evt data).1.get x = (writeBytes q q.ioHead bs).1.get x := by
    intro x
    rw [hql]
    rfl
  have hused2 : jshGetEventsUsed (jshPushEvent q evt data).1 = u + (data.length + 2) := by
    simp only [jshGetEventsUsed, hpsize, hphead, hptail]
    exact ringUsed_of_head ht (by omega) hW2
  refine ⟨hpsnd, ⟨by rw [hpsize]; exact hs4, ?_, by rw [hptail, hpsize]; exact ht,
    by rw [hplast, hpsize]; exact hh, by rw [hused2, hpsize]; omega, ?_, ?_⟩, hperr⟩
  · rw [hphead, hW2]
    rw [hpsize]
    exact Nat.mod_lt _ hsize
  · -- the live window grew by exactly the encoding of the new event
    rw [encodeList_append]
    have hencsingle : encodeList [(evt, data)] = bs := by
      simp [encodeList, encodeEvent, hbs]
    rw [hencsingle, ← hc]
    apply ext_getD _ _ 0
    · rw [contents_length, hused2, List.length_append, contents_length, hbslen]
    · intro i hi
      rw [contents_length, hused2] at hi
      rw [← contents_getD _ i (by rwa [hused2]), hptail, hpget]
      rcases Nat.lt_or_ge i u with hiu | hiu
      · -- bytes of the old window are untouched
        rw [writeBytes_get_outside bs q q.ioHead (q.ioTail + i) ?hout]
        · rw [contents_getD q i (by rwa [← hu]),
            getD_append_left _ _ _ _ (by rwa [contents_length, ← hu])]
        case hout =>
          intro k hk
          rw [hheadEq, mod_add_cancel, Nat.add_assoc]
          refine ring_offset_ne (by omega) ?_ (by omega)
          rw [hbslen] at hk
          omega
      · -- bytes of the new record
        set m := i - u with hm
        have him : i = u + m := by omega
        have hmlt : m < data.length + 2 := by omega
        have hcg : (q.ioTail + i) % q.size = (q.ioHead + m) % q.size := by
          rw [hheadEq, mod_add_cancel, him]
          congr 1
          omega
        have hrw : (writeBytes q q.ioHead bs).1.get (q.ioTail + i)
            = (writeBytes q q.ioHead bs).1.get (q.ioHead + m) :=
          get_congr _ (by simp only [writeBytes_size]; exact hcg)
        rw [hrw]
        rw [writeBytes_get_inside bs q q.ioHead (by rw [hbslen]; omega) m (by rwa [hbslen])]
        rw [hbyte m hmlt]
        rw [getD_append_right _ _ _ _ (by rw [contents_length, ← hu]; omega)]
        rw [contents_length, ← hu, ← hm]
  · intro e he
    rcases List.mem_append.1 he with h1 | h1
    · exact hv e h1
    · have : e = (evt, data) := by simpa using h1
      subst this
      exact ⟨hev1, hev2, hev3⟩

/-! ## Refinement of jshPopIOEvent -/

theorem used_zero_iff {q : IOState} (ht : q.ioTail < q.size) :
    jshGetEventsUsed q = 0 ↔ q.ioHead = q.ioTail := by
  simp only [jshGetEventsUsed, ringUsed]
  split_ifs with h <;> omega

/-- Popping an empty queue returns no event and leaves the state alone. -/
theorem pop_nil (q : IOState) (hA : Abs q []) : jshPopIOEvent q = (none, q) := by
  obtain ⟨hs4, hh, ht, hlh, hu4, hc, hv⟩ := hA
  have hu : jshGetEventsUsed q = 0 := by
    have := contents_length q
    rw [hc] at this
    simpa [encodeList] using this.symm
  have := (used_zero_iff ht).1 hu
  simp [jshPopIOEvent, this]

/-- Unfolded form of a successful pop. -/
theorem pop_proj (q : IOState) (hne : ¬ q.ioHead = q.ioTail) :
    jshPopIOEvent q =
      (some (q.get (q.ioTail + 1),
             (List.range (q.get q.ioTail)).map (fun i => q.get (q.ioTail + 2 + i))),
       { q with ioLastHead := if q.ioLastHead = q.ioTail then q.ioHead else q.ioLastHead,
                ioTail := (q.ioTail + 2 + q.get q.ioTail) % q.size }) := by
  by_cases h : q.ioLastHead = q.ioTail <;>
    simp [jshPopIOEvent, hne, h, IOState.get]

/-- Popping a nonempty queue returns the oldest event (tag and payload) and
removes exactly its encoding from the live window. -/
theorem pop_cons (q : IOState) (e : Nat × List Nat) (rest : List (Nat × List Nat))
    (hA : Abs q (e :: rest)) :
    (jshPopIOEvent q).1 = some (e.1, e.2) ∧
    Abs (jshPopIOEvent q).2 rest ∧
    (jshPopIOEvent q).2.err = q.err ∧
    (jshPopIOEvent q).2.ioHead = q.ioHead := by
  obtain ⟨hs4, hh, ht, hlh, hu4, hc, hv⟩ := hA
  have hsize : 0 < q.size := by omega
  set u := jshGetEventsUsed q with hu
  set L := e.2.length with hL0
  have hclen : (contents q).length = u := contents_length q
  have hulen : u = (L + 2) + (encodeList rest).length := by
    rw [← hclen, hc, encodeList_cons, List.length_append, encodeEvent_length]
  have hne : ¬ q.ioHead = q.ioTail := by
    intro h
    have := (used_zero_iff ht).2 h
    omega
  have hgetL : q.get q.ioTail = L := by
    have h0 := contents_getD q 0 (by omega)
    rw [Nat.add_zero] at h0
    rw [h0, hc, encodeList_cons,
      getD_append_left _ _ _ _ (by rw [encodeEvent_length]; omega)]
    simp [encodeEvent]
  have hgetEvt : q.get (q.ioTail + 1) = e.1 := by
    rw [contents_getD q 1 (by omega), hc, encodeList_cons,
      getD_append_left _ _ _ _ (by rw [encodeEvent_length]; omega)]
    simp [encodeEvent]
  have hgetData : (List.range (q.get q.ioTail)).map (fun i => q.get (q.ioTail + 2 + i)) = e.2 := by
    rw [hgetL]
    have hpt : ∀ i < L, q.get (q.ioTail + 2 + i) = e.2.getD i 0 := by
      intro i hi
      rw [Nat.add_assoc, contents_getD q (2 + i) (by omega), hc, encodeList_cons,
        getD_append_left _ _ _ _ (by rw [encodeEvent_length]; omega)]
      simp only [encodeEvent]
      rw [show 2 + i = i + 1 + 1 by omega]
      simp [List.getD_cons_succ]
    calc (List.range L).map (fun i => q.get (q.ioTail + 2 + i))
        = (List.range L).map (fun i => e.2.getD i 0) := by
          apply List.map_congr_left
          intro i hi
          exact hpt i (List.mem_range.1 hi)
      _ = e.2 := by rw [hL0]; exact map_range_getD e.2 0
  rw [pop_proj q hne]
  have htail2 : (q.ioTail + 2 + q.get q.ioTail) % q.size = (q.ioTail + (L + 2)) % q.size := by
    rw [hgetL]
    congr 1
    omega
  have hhead : q.ioHead = (q.ioTail + u) % q.size := by
    rw [hu]
    exact ringUsed_head_eq hh ht
  have hused2 : ringUsed q.size q.ioHead ((q.ioTail + (L + 2)) % q.size)
      = (encodeList rest).length := by
    apply ringUsed_of_head (Nat.mod_lt _ hsize) (by omega)
    rw [mod_add_cancel, hhead]
    congr 1
    omega
  refine ⟨by rw [hgetEvt, hgetData], ⟨hs4, hh, ?_, ?_, ?_, ?_, ?_⟩, rfl, rfl⟩
  · show (q.ioTail + 2 + q.get q.ioTail) % q.size < q.size
    exact Nat.mod_lt _ hsize
  · show (if q.ioLastHead = q.ioTail then q.ioHead else q.ioLastHead) < q.size
    split_ifs <;> assumption
  · show ringUsed q.size q.ioHead ((q.ioTail + 2 + q.get q.ioTail) % q.size) + 4 ≤ q.size
    rw [htail2, hused2]
    omega
  · show List.map _ (List.range (ringUsed q.size q.ioHead ((q.ioTail + 2 + q.get q.ioTail) % q.size)))
        = encodeList rest
    rw [htail2, hused2]
    apply ext_getD _ _ 0
    · simp
    · intro j hj
      simp only [List.length_map, List.length_range] at hj
      rw [List.getD_eq_getElem _ _ (by simpa using hj)]
      simp only [List.getElem_map, List.getElem_range]
      have hcg : ((q.ioTail + (L + 2)) % q.size + j) % q.size = (q.ioTail + ((L + 2) + j)) % q.size := by
        rw [mod_add_cancel, Nat.add_assoc]
      show q.get ((q.ioTail + (L + 2)) % q.size + j) = (encodeList rest).getD j 0
      rw [get_congr q hcg, contents_getD q ((L + 2) + j) (by omega), hc, encodeList_cons,
        getD_append_right _ _ _ _ (by rw [encodeEvent_length]; omega)]
      rw [encodeEvent_length]
      congr 1
      omega
  · exact fun e2 he2 => hv e2 (List.mem_cons_of_mem _ he2)

/-- A push that fails the free-space check drops the event, raises the RX
FIFO overflow flag and changes nothing else. -/
theorem push_fail (q : IOState) (evt : Nat) (data : List Nat)
    (hd : data.length ≤ IOEVENT_MAX_LEN)
    (hcond : jshGetIOCharEventsFree q < (data.length : Int) + 2) :
    jshPushEvent q evt data
      = ({ q with err := { q.err with rxFifoFull := true } }, false) := by
  have hdd : data.take IOEVENT_MAX_LEN = data := List.take_of_length_le hd
  simp only [jshPushEvent, hdd]
  rw [if_pos hcond]

theorem initIOState_abs (size : Nat) (h : 4 ≤ size) : Abs (initIOState size) [] := by
  refine ⟨h, by simpa [initIOState] using by omega, by simp [initIOState]; omega,
    by simp [initIOState]; omega, ?_, ?_, by simp⟩
  · simp [initIOState, jshGetEventsUsed, ringUsed]
    omega
  · simp [contents, initIOState, jshGetEventsUsed, ringUsed, encodeList]

/-- Simulation: as long as no push fails, the ring behaves exactly like a
functional queue, call by call. -/
theorem ioRun_sim (ops : List IOOp) : ∀ (q : IOState) (l : List (Nat × List Nat)),
    Abs q l → (∀ op ∈ ops, opValid op = true) →
    IORes.pushed false ∉ (ioRun q ops).1 →
    (ioRun q ops).1 = (specRun l ops).1 ∧ Abs (ioRun q ops).2 (specRun l ops).2 := by
  induction ops with
  | nil => exact fun q l hA _ _ => ⟨rfl, hA⟩
  | cons op ops ih =>
    intro q l hA hvalid hnofail
    rcases op with ⟨evt, data⟩ | _
    · -- a push call
      have hv := hvalid _ (List.mem_cons_self _ _)
      simp only [opValid, Bool.and_eq_true, decide_eq_true_eq, List.all_eq_true] at hv
      obtain ⟨⟨hv1, hv2⟩, hv3⟩ := hv
      have hvb : ∀ b ∈ data, b < 256 := fun b hb => by
        have := hv3 b hb
        simpa using this
      simp only [ioRun, List.mem_cons] at hnofail
      push_neg at hnofail
      obtain ⟨hhd, htl⟩ := hnofail
      have hok : (jshPushEvent q evt data).2 = true := by
        by_cases hcond : jshGetIOCharEventsFree q < (data.length : Int) + 2
        · exfalso
          apply hhd
          rw [push_fail q evt data hv2 hcond]
        · obtain ⟨hs4, hh, ht, hlh, hu4, hc, hvl⟩ := hA
          have hfree : jshGetEventsUsed q + data.length + 6 ≤ q.size := by
            simp only [jshGetIOCharEventsFree] at hcond
            omega
          exact (push_spec q l evt data ⟨hs4, hh, ht, hlh, hu4, hc, hvl⟩ ⟨hv1, hv2, hvb⟩ hfree).1
      have hcond : ¬ (jshGetIOCharEventsFree q < (data.length : Int) + 2) := by
        intro hcond
        rw [push_fail q evt data hv2 hcond] at hok
        simp at hok
      obtain ⟨hs4, hh, ht, hlh, hu4, hc, hvl⟩ := hA
      have hfree : jshGetEventsUsed q + data.length + 6 ≤ q.size := by
        simp only [jshGetIOCharEventsFree] at hcond
        omega
      have hps := push_spec q l evt data ⟨hs4, hh, ht, hlh, hu4, hc, hvl⟩ ⟨hv1, hv2, hvb⟩ hfree
      have hrec := ih (jshPushEvent q evt data).1 (l ++ [(evt, data)]) hps.2.1
        (fun op2 hop2 => hvalid op2 (List.mem_cons_of_mem _ hop2)) (by simpa using htl)
      constructor
      · show IORes.pushed (jshPushEvent q evt data).2 :: _ = IORes.pushed true :: _
        rw [hok, hrec.1]
      · exact hrec.2
    · -- a pop call
      simp only [ioRun, List.mem_cons] at hnofail
      push_neg at hnofail
      obtain ⟨hhd, htl⟩ := hnofail
      rcases l with _ | ⟨e, rest⟩
      · have hpp := pop_nil q hA
        have hrec := ih (jshPopIOEvent q).2 [] (by rw [hpp]; exact hA)
          (fun op2 hop2 => hvalid op2 (List.mem_cons_of_mem _ hop2)) (by simpa using htl)
        constructor
        · show IORes.popped (jshPopIOEvent q).1 :: _ = IORes.popped none :: _
          rw [hrec.1, hpp]
        · exact hrec.2
      · have hpp := pop_cons q e rest hA
        have hrec := ih (jshPopIOEvent q).2 rest hpp.2.1
          (fun op2 hop2 => hvalid op2 (List.mem_cons_of_mem _ hop2)) (by simpa using htl)
        constructor
        · show IORes.popped (jshPopIOEvent q).1 :: _ = IORes.popped (some e) :: _
          rw [hrec.1, hpp.1]
        · exact hrec.2

/-- Claim C1: for every sequence of jshPushEvent and jshPopIOEvent calls in
which no push fails for lack of space, jshPopIOEvent returns the events in
exactly the order they were pushed, and each popped event reports the same
device tag, the same length, and byte for byte the same payload that was
pushed (the trace of results equals the trace of an ideal FIFO queue). -/
theorem claim_C1 (size : Nat) (hsize : 4 ≤ size) (ops : List IOOp)
    (hvalid : ∀ op ∈ ops, opValid op = true)
    (hnofail : IORes.pushed false ∉ (ioRun (initIOState size) ops).1) :
    (ioRun (initIOState size) ops).1 = (specRun [] ops).1 :=
  (ioRun_sim ops (initIOState size) [] (initIOState_abs size hsize) hvalid hnofail).1

theorem claim_C1_witness :
    (ioRun (initIOState 16)
        [IOOp.push 5 [7, 9], IOOp.push 9 [], IOOp.pop, IOOp.pop, IOOp.pop]).1
      = (specRun [] [IOOp.push 5 [7, 9], IOOp.push 9 [], IOOp.pop, IOOp.pop, IOOp.pop]).1 :=
  claim_C1 16 (by omega) _ (by decide) (by decide)

/-- Claim C3: a call of jshPushEvent with less free space than the payload
length plus two returns false, raises the RX_FIFO_FULL error flag and
leaves the whole queue state (contents, head, tail) unchanged; otherwise it
returns true and appends the event, leaving the error flags alone. -/
theorem claim_C3 (q : IOState) (l : List (Nat × List Nat)) (evt : Nat) (data : List Nat)
    (hA : Abs q l) (hvalid : opValid (IOOp.push evt data) = true) :
    (jshGetIOCharEventsFree q < (data.length : Int) + 2 →
       jshPushEvent q evt data
         = ({ q with err := { q.err with rxFifoFull := true } }, false)) ∧
    (¬ jshGetIOCharEventsFree q < (data.length : Int) + 2 →
       (jshPushEvent q evt data).2 = true ∧
       contents (jshPushEvent q evt data).1 = contents q ++ encodeEvent (evt, data) ∧
       (jshPushEvent q evt data).1.err = q.err) := by
  simp only [opValid, Bool.and_eq_true, decide_eq_true_eq, List.all_eq_true] at hvalid
  obtain ⟨⟨hv1, hv2⟩, hv3⟩ := hvalid
  have hvb : ∀ b ∈ data, b < 256 := fun b hb => by
    have := hv3 b hb
    simpa using this
  constructor
  · exact fun hcond => push_fail q evt data hv2 hcond
  · intro hcond
    obtain ⟨hs4, hh, ht, hlh, hu4, hc, hvl⟩ := hA
    have hfree : jshGetEventsUsed q + data.length + 6 ≤ q.size := by
      simp only [jshGetIOCharEventsFree] at hcond
      omega
    have hps := push_spec q l evt data ⟨hs4, hh, ht, hlh, hu4, hc, hvl⟩ ⟨hv1, hv2, hvb⟩ hfree
    refine ⟨hps.1, ?_, hps.2.2⟩
    rw [hps.2.1.2.2.2.2.2.1, hc, encodeList_append]
    simp [encodeList]

theorem claim_C3_witness :
    (jshGetIOCharEventsFree (initIOState 8) < ((([7] : List Nat).length : Int) + 2) →
       jshPushEvent (initIOState 8) 5 [7]
         = ({ initIOState 8 with
              err := { (initIOState 8).err with rxFifoFull := true } }, false)) ∧
    (¬ jshGetIOCharEventsFree (initIOState 8) < ((([7] : List Nat).length : Int) + 2) →
       (jshPushEvent (initIOState 8) 5 [7]).2 = true ∧
       contents (jshPushEvent (initIOState 8) 5 [7]).1
         = contents (initIOState 8) ++ encodeEvent (5, [7]) ∧
       (jshPushEvent (initIOState 8) 5 [7]).1.err = (initIOState 8).err) :=
  claim_C3 (initIOState 8) [] 5 [7] (initIOState_abs 8 (by omega)) (by decide)

/-! ## The backward compaction loop of jshPopIOEventOfType -/

theorem mod_mod {x n : Nat} : x % n % n = x % n :=
  Nat.mod_mod_of_dvd x dvd_rfl

/-- The compaction loop, started with the source at offset m from the tail
and the destination D slots further, moves the m plus one bytes at offsets
zero through m forward by D slots, stops with the destination index at
offset D, and touches nothing else.  The no-wrap condition m plus D below
the buffer size guarantees every source byte is read before the loop
overwrites it. -/
theorem shiftLoop_spec (m : Nat) : ∀ (q : IOState) (D fuel : Nat),
    q.ioTail < q.size → 1 ≤ D → m + D < q.size → m < fuel →
    (shiftLoop q ((q.ioTail + m + D) % q.size) ((q.ioTail + m) % q.size) fuel).2
        = (q.ioTail + D) % q.size ∧
    ShiftSpec q
      (shiftLoop q ((q.ioTail + m + D) % q.size) ((q.ioTail + m) % q.size) fuel).1 m D := by
  induction m with
  | zero =>
    intro q D fuel ht hD hmD hfuel
    obtain ⟨f, rfl⟩ : ∃ f, fuel = f + 1 := ⟨fuel - 1, by omega⟩
    have hsize : 0 < q.size := by omega
    have hsrc : (q.ioTail + 0) % q.size = q.ioTail := by
      rw [Nat.add_zero, Nat.mod_eq_of_lt ht]
    rw [hsrc]
    have hkey : shiftLoop q ((q.ioTail + 0 + D) % q.size) q.ioTail (f + 1)
        = (q.setByte ((q.ioTail + 0 + D) % q.size) (q.get q.ioTail),
           (q.ioTail + 0 + D) % q.size) := by
      simp only [shiftLoop]
      rw [setByte_ioTail, if_pos rfl]
    rw [hkey]
    refine ⟨by simp, rfl, rfl, rfl, rfl, rfl, ?_, ?_⟩
    · intro k hk
      interval_cases k
      rw [get_setByte]
      rw [if_pos (by rw [mod_mod]; congr 1 <;> omega)]
      rw [Nat.add_zero]
    · intro j hj
      rw [get_setByte]
      rw [if_neg ?hne]
      case hne =>
        have h0 := hj 0 (Nat.le_refl 0)
        rw [mod_mod]
        intro hcontra
        exact h0 (by rw [hcontra]; congr 1 <;> omega)
  | succ m ih =>
    intro q D fuel ht hD hmD hfuel
    obtain ⟨f, rfl⟩ : ∃ f, fuel = f + 1 := ⟨fuel - 1, by omega⟩
    have hsize : 0 < q.size := by omega
    have hm1 : m + 1 < q.size := by omega
    have hne : ¬ (q.ioTail + (m + 1)) % q.size = q.ioTail := by
      intro h
      have h0 : (q.ioTail + (m + 1)) % q.size = (q.ioTail + 0) % q.size := by
        rw [h, Nat.add_zero, Nat.mod_eq_of_lt ht]
      exact absurd (ring_offset_inj hm1 hsize h0) (by omega)
    simp only [shiftLoop]
    rw [setByte_ioTail, if_neg hne]
    -- the state after the first copy
    set q1 := q.setByte ((q.ioTail + (m + 1) + D) % q.size)
        (q.get ((q.ioTail + (m + 1)) % q.size)) with hq1
    -- stepping both indices one slot back lands at offsets m and m plus D
    have hsrc2 : ((q.ioTail + (m + 1)) % q.size + q.size - 1) % q.size
        = (q.ioTail + m) % q.size := by
      rw [show ((q.ioTail + (m + 1)) % q.size + q.size - 1)
          = ((q.ioTail + (m + 1)) % q.size + (q.size - 1)) by omega]
      rw [mod_add_cancel]
      rw [show q.ioTail + (m + 1) + (q.size - 1) = q.ioTail + m + q.size by omega]
      rw [Nat.add_mod_right]
    have hdst2 : ((q.ioTail + (m + 1) + D) % q.size + q.size - 1) % q.size
        = (q.ioTail + m + D) % q.size := by
      rw [show ((q.ioTail + (m + 1) + D) % q.size + q.size - 1)
          = ((q.ioTail + (m + 1) + D) % q.size + (q.size - 1)) by omega]
      rw [mod_add_cancel]
      rw [show q.ioTail + (m + 1) + D + (q.size - 1) = q.ioTail + m + D + q.size by omega]
      rw [Nat.add_mod_right]
    rw [hsrc2, hdst2]
    have hq1t : q1.ioTail = q.ioTail := rfl
    have hq1s : q1.size = q.size := rfl
    have hq1h : q1.ioHead = q.ioHead := rfl
    have hq1l : q1.ioLastHead = q.ioLastHead := rfl
    have hq1e : q1.err = q.err := rfl
    have hrec := ih q1 D f (by rw [hq1t, hq1s]; exact ht) hD (by rw [hq1s]; omega) (by omega)
    rw [hq1t, hq1s] at hrec
    obtain ⟨hr2, hrs, hrh, hrt, hrl, hre, hrin, hrout⟩ := hrec
    simp only [hq1t, hq1s, hq1h, hq1l, hq1e] at hrs hrh hrt hrl hre hrin hrout
    have hq1get : ∀ x,
        (x % q.size ≠ (q.ioTail + (m + 1 + D)) % q.size ∧ q1.get x = q.get x)
        ∨ (x % q.size = (q.ioTail + (m + 1 + D)) % q.size
           ∧ q1.get x = q.get (q.ioTail + (m + 1)) % 256) := by
      intro x
      have harr : (q.ioTail + (m + 1) + D) % q.size = (q.ioTail + (m + 1 + D)) % q.size := by
        congr 1
        omega
      by_cases hx : x % q.size = (q.ioTail + (m + 1 + D)) % q.size
      · right
        refine ⟨hx, ?_⟩
        rw [hq1, get_setByte]
        rw [if_pos (by rw [mod_mod, harr]; exact hx)]
        congr 1
        exact get_congr q mod_mod
      · left
        refine ⟨hx, ?_⟩
        rw [hq1, get_setByte]
        rw [if_neg (by rw [mod_mod, harr]; exact hx)]
    refine ⟨hr2, hrs, hrh, hrt, hrl, hre, ?_, ?_⟩
    · -- copied window: offsets zero through m come from the recursion,
      -- offset m plus one was written by the first copy and left alone after
      intro k hk
      rcases Nat.lt_or_ge k (m + 1) with hkm | hkm
      · have hk2 : k ≤ m := by omega
        rw [hrin k hk2]
        rcases hq1get (q.ioTail + k) with h1 | h1
        · rw [h1.2]
        · exfalso
          exact ring_offset_ne (n := q.size) (by omega) (by omega) (by omega) h1.1
      · have hk2 : k = m + 1 := by omega
        subst hk2
        have houtside : ∀ k2, k2 ≤ m →
            (q.ioTail + D + (m + 1)) % q.size ≠ (q.ioTail + D + k2) % q.size := by
          intro k2 hk2
          rw [Nat.add_assoc, Nat.add_assoc]
          exact ring_offset_ne (by omega) (by omega) (by omega)
        rw [hrout _ houtside]
        rcases hq1get (q.ioTail + D + (m + 1)) with h1 | h1
        · exfalso
          apply h1.1
          congr 1
          omega
        · rw [h1.2]
    · -- untouched slots
      intro j hj
      rw [hrout j (fun k2 hk2 => hj k2 (by omega))]
      rcases hq1get j with h1 | h1
      · exact h1.2
      · exfalso
        apply hj (m + 1) (Nat.le_refl _)
        rw [h1.1]
        congr 1
        omega

/-! ## Refinement of jshPopIOEventOfType (claim C2) -/

theorem encodeEvent_getD_lt (e : Nat × List Nat) (he : EventValid e) :
    ∀ i, i < (encodeEvent e).length → (encodeEvent e).getD i 0 < 256 := by
  obtain ⟨h1, h2, h3⟩ := he
  intro i hi
  rw [encodeEvent_length] at hi
  match i with
  | 0 =>
    simp only [encodeEvent, List.getD_cons_zero]
    have : e.2.length ≤ 64 := h2
    omega
  | 1 => simpa [encodeEvent] using h1
  | (i + 2) =>
    simp only [encodeEvent, List.getD_cons_succ]
    have hilt : i < e.2.length := by omega
    rw [List.getD_eq_getElem _ _ hilt]
    exact h3 _ (List.getElem_mem _)

theorem getD_append_lt (l1 l2 : List Nat)
    (h1 : ∀ i, i < l1.length → l1.getD i 0 < 256)
    (h2 : ∀ i, i < l2.length → l2.getD i 0 < 256) :
    ∀ i, i < (l1 ++ l2).length → (l1 ++ l2).getD i 0 < 256 := by
  intro i hi
  rw [List.length_append] at hi
  rcases Nat.lt_or_ge i l1.length with h | h
  · rw [getD_append_left _ _ _ _ h]
    exact h1 i h
  · rw [getD_append_right _ _ _ _ h]
    exact h2 _ (by omega)

/-- Claim C2: on a queue holding exactly the events A, B, C in that order,
where B is the first event whose type matches, jshPopIOEventOfType returns
the tag of B together with its payload (so the caller gets its length and
its bytes), and afterwards the live window holds exactly A then C: the
backward compaction preserves the FIFO order of the non matching events. -/
theorem claim_C2 (q : IOState) (A B C : Nat × List Nat) (T : Nat)
    (hA : Abs q [A, B, C])
    (hAtype : ¬ IOEVENTFLAGS_GETTYPE A.1 = T)
    (hBtype : IOEVENTFLAGS_GETTYPE B.1 = T) :
    (jshPopIOEventOfType T q).1 = some (B.1, B.2) ∧
    contents (jshPopIOEventOfType T q).2 = encodeEvent A ++ encodeEvent C ∧
    Abs (jshPopIOEventOfType T q).2 [A, C] := by
  obtain ⟨hs4, hh, ht, hlh, hu4, hc, hv⟩ := hA
  have hsize : 0 < q.size := by omega
  set u := jshGetEventsUsed q with hu
  set LA := A.2.length with hLA
  set LB := B.2.length with hLB
  set LC := C.2.length with hLC
  have hbytes : contents q = encodeEvent A ++ (encodeEvent B ++ encodeEvent C) := by
    rw [hc]
    simp [encodeList]
  have hclen : (contents q).length = u := contents_length q
  have hulen : u = (LA + 2) + ((LB + 2) + (LC + 2)) := by
    rw [← hclen, hbytes]
    simp only [List.length_append, encodeEvent_length]
  have hbyteAt : ∀ j, j < u →
      q.get (q.ioTail + j) = (encodeEvent A ++ (encodeEvent B ++ encodeEvent C)).getD j 0 := by
    intro j hj
    rw [contents_getD q j (by rwa [← hu]), hbytes]
  have hbyteLt : ∀ j, j < u →
      (encodeEvent A ++ (encodeEvent B ++ encodeEvent C)).getD j 0 < 256 := by
    intro j hj
    refine getD_append_lt _ _ (encodeEvent_getD_lt A (hv A (by simp)))
      (getD_append_lt _ _ (encodeEvent_getD_lt B (hv B (by simp)))
        (encodeEvent_getD_lt C (hv C (by simp)))) j ?_
    rw [← hbytes, hclen]
    exact hj
  -- the individual header and payload bytes of A and B
  have hg0 : q.get q.ioTail = LA := by
    have := hbyteAt 0 (by omega)
    rw [Nat.add_zero] at this
    rw [this, getD_append_left _ _ _ _ (by rw [encodeEvent_length] <;> omega)]
    simp [encodeEvent]
  have hg1 : q.get (q.ioTail + 1) = A.1 := by
    rw [hbyteAt 1 (by omega), getD_append_left _ _ _ _ (by rw [encodeEvent_length] <;> omega)]
    simp [encodeEvent]
  have hgB0 : q.get (q.ioTail + (LA + 2)) = LB := by
    rw [hbyteAt (LA + 2) (by omega),
      getD_append_right _ _ _ _ (by rw [encodeEvent_length] <;> omega)]
    rw [encodeEvent_length, show LA + 2 - (LA + 2) = 0 by omega,
      getD_append_left _ _ _ _ (by rw [encodeEvent_length] <;> omega)]
    simp [encodeEvent]
  have hgB1 : q.get (q.ioTail + (LA + 3)) = B.1 := by
    rw [hbyteAt (LA + 3) (by omega),
      getD_append_right _ _ _ _ (by rw [encodeEvent_length] <;> omega)]
    rw [encodeEvent_length, show LA + 3 - (LA + 2) = 1 by omega,
      getD_append_left _ _ _ _ (by rw [encodeEvent_length] <;> omega)]
    simp [encodeEvent]
  have hgBn : ∀ n, n < LB → q.get (q.ioTail + (LA + 4 + n)) = B.2.getD n 0 := by
    intro n hn
    rw [hbyteAt (LA + 4 + n) (by omega),
      getD_append_right _ _ _ _ (by rw [encodeEvent_length] <;> omega)]
    rw [encodeEvent_length, show LA + 4 + n - (LA + 2) = n + 2 by omega,
      getD_append_left _ _ _ _ (by rw [encodeEvent_length] <;> omega)]
    simp only [encodeEvent, List.getD_cons_succ]
  have hhead : q.ioHead = (q.ioTail + u) % q.size := by
    rw [hu]
    exact ringUsed_head_eq hh ht
  -- first scan step: the record of A does not match, move past it
  have hne1 : ¬ q.ioHead = q.ioTail := by
    intro h
    have := (used_zero_iff ht).2 h
    omega
  have hstep1 : jshPopIOEventOfType T q
      = popOfTypeScan T q ((q.ioTail + LA + 2) % q.size) q.size := by
    show popOfTypeScan T q q.ioTail (q.size + 1) = _
    simp only [popOfTypeScan]
    rw [if_neg hne1, hg1]
    rw [if_neg hAtype, hg0]
  set i2 : Nat := (q.ioTail + LA + 2) % q.size with hi2
  have hne2 : ¬ q.ioHead = i2 := by
    rw [hi2, hhead]
    intro hcontra
    rw [show q.ioTail + LA + 2 = q.ioTail + (LA + 2) by omega] at hcontra
    have := ring_offset_inj (show u < q.size by omega) (show LA + 2 < q.size by omega) hcontra
    omega
  -- the header and payload bytes of B, read at the shifted scan position
  have hgi2 : q.get i2 = LB := by
    rw [get_congr q (a := i2) (b := q.ioTail + (LA + 2))
      (by rw [hi2, mod_mod] <;> (congr 1 <;> omega))]
    exact hgB0
  have hgi21 : q.get (i2 + 1) = B.1 := by
    rw [get_congr q (a := i2 + 1) (b := q.ioTail + (LA + 3))
      (by rw [hi2, mod_add_cancel] <;> (congr 1 <;> omega))]
    exact hgB1
  have hdata : (List.range (q.get i2)).map (fun n => q.get (i2 + 2 + n)) = B.2 := by
    rw [hgi2]
    have hpt : ∀ n, n < LB → q.get (i2 + 2 + n) = B.2.getD n 0 := by
      intro n hn
      rw [get_congr q (a := i2 + 2 + n) (b := q.ioTail + (LA + 4 + n))
        (by rw [hi2, show (q.ioTail + LA + 2) % q.size + 2 + n
              = (q.ioTail + LA + 2) % q.size + (2 + n) by omega, mod_add_cancel] <;>
            (congr 1 <;> omega))]
      exact hgBn n hn
    calc (List.range LB).map (fun n => q.get (i2 + 2 + n))
        = (List.range LB).map (fun n => B.2.getD n 0) := by
          apply List.map_congr_left
          intro n hn
          exact hpt n (List.mem_range.1 hn)
      _ = B.2 := by rw [hLB]; exact map_range_getD B.2 0
  -- second scan step: the record of B matches; name the compaction result
  have harg_dst : (i2 + LB + 1) % q.size
      = (q.ioTail + (LA + 1) + (LB + 2)) % q.size := by
    rw [hi2, show (q.ioTail + LA + 2) % q.size + LB + 1
        = (q.ioTail + LA + 2) % q.size + (LB + 1) by omega, mod_add_cancel]
    congr 1
    omega
  have harg_src : (i2 + q.size - 1) % q.size = (q.ioTail + (LA + 1)) % q.size := by
    rw [hi2, show (q.ioTail + LA + 2) % q.size + q.size - 1
        = (q.ioTail + LA + 2) % q.size + (q.size - 1) by omega, mod_add_cancel]
    rw [show q.ioTail + LA + 2 + (q.size - 1) = q.ioTail + (LA + 1) + q.size by omega]
    rw [Nat.add_mod_right]
  have hsz : q.size = (q.size - 1) + 1 := by omega
  have hstep2 : popOfTypeScan T q i2 q.size
      = (some (B.1, B.2),
         { (shiftLoop q ((q.ioTail + (LA + 1) + (LB + 2)) % q.size)
              ((q.ioTail + (LA + 1)) % q.size) (q.size + 1)).1 with
           ioTail := (shiftLoop q ((q.ioTail + (LA + 1) + (LB + 2)) % q.size)
              ((q.ioTail + (LA + 1)) % q.size) (q.size + 1)).2,
           ioLastHead := (shiftLoop q ((q.ioTail + (LA + 1) + (LB + 2)) % q.size)
              ((q.ioTail + (LA + 1)) % q.size) (q.size + 1)).1.ioHead }) := by
    conv_lhs => rw [hsz]
    simp only [popOfTypeScan]
    rw [if_neg hne2, hgi21]
    rw [if_pos hBtype, hdata, hgi2]
    rw [harg_dst, harg_src]
  obtain ⟨hS2, hSs, hSh, hSt, hSl, hSe, hSin, hSout⟩ :=
    shiftLoop_spec (LA + 1) q (LB + 2) (q.size + 1) ht (by omega) (by omega) (by omega)
  set S := shiftLoop q ((q.ioTail + (LA + 1) + (LB + 2)) % q.size)
      ((q.ioTail + (LA + 1)) % q.size) (q.size + 1) with hS
  set q2 : IOState := { S.1 with ioTail := S.2, ioLastHead := S.1.ioHead } with hq2
  have hfinal : jshPopIOEventOfType T q = (some (B.1, B.2), q2) := by
    rw [hstep1, hstep2]
  have hq2size : q2.size = q.size := by rw [hq2]; exact hSs
  have hq2head : q2.ioHead = q.ioHead := by rw [hq2]; exact hSh
  have hq2tail : q2.ioTail = (q.ioTail + (LB + 2)) % q.size := by rw [hq2]; exact hS2
  have hq2err : q2.err = q.err := by rw [hq2]; exact hSe
  have hq2get : ∀ x, q2.get x = S.1.get x := fun x => rfl
  have hused2 : jshGetEventsUsed q2 = LA + LC + 4 := by
    show ringUsed q2.size q2.ioHead q2.ioTail = _
    rw [hq2size, hq2head, hq2tail]
    apply ringUsed_of_head (Nat.mod_lt _ hsize) (by omega)
    rw [mod_add_cancel, hhead]
    congr 1
    omega
  -- every byte of the new window, pointwise
  have hwin : ∀ j, j < LA + LC + 4 →
      q2.get (q2.ioTail + j) = (encodeEvent A ++ encodeEvent C).getD j 0 := by
    intro j hj
    rw [hq2get, hq2tail]
    have hcg1 : S.1.get ((q.ioTail + (LB + 2)) % q.size + j)
        = S.1.get (q.ioTail + (LB + 2) + j) := by
      apply get_congr
      rw [hS]
      show ((q.ioTail + (LB + 2)) % q.size + j) % (shiftLoop _ _ _ _).1.size
          = (q.ioTail + (LB + 2) + j) % (shiftLoop _ _ _ _).1.size
      rw [← hS, hSs, mod_add_cancel]
    rw [hcg1]
    rcases Nat.lt_or_ge j (LA + 2) with hjA | hjA
    · -- inside the copied window: the byte of A at offset j
      have hcg2 : S.1.get (q.ioTail + (LB + 2) + j) = q.get (q.ioTail + j) % 256 :=
        hSin j (by omega)
      rw [hcg2, hbyteAt j (by omega), Nat.mod_eq_of_lt (hbyteLt j (by omega))]
      rw [getD_append_left _ _ _ _ (by rw [encodeEvent_length] <;> omega),
        getD_append_left _ _ _ _ (by rw [encodeEvent_length] <;> omega)]
    · -- past the copied window: untouched bytes of C
      have hout : S.1.get (q.ioTail + (LB + 2) + j) = q.get (q.ioTail + (LB + 2) + j) := by
        apply hSout
        intro k hk
        rw [show q.ioTail + (LB + 2) + j = q.ioTail + ((LB + 2) + j) by omega,
          show q.ioTail + (LB + 2) + k = q.ioTail + ((LB + 2) + k) by omega]
        exact ring_offset_ne (by omega) (by omega) (by omega)
      rw [hout]
      rw [show q.ioTail + (LB + 2) + j = q.ioTail + ((LB + 2) + j) by omega]
      rw [hbyteAt ((LB + 2) + j) (by omega)]
      have hlenA : (encodeEvent A).length = LA + 2 := by rw [encodeEvent_length]
      have hlenB : (encodeEvent B).length = LB + 2 := by rw [encodeEvent_length]
      rw [getD_append_right (encodeEvent A) (encodeEvent B ++ encodeEvent C) 0
        ((LB + 2) + j) (by rw [hlenA]; omega)]
      rw [hlenA]
      rw [getD_append_right (encodeEvent B) (encodeEvent C) 0
        ((LB + 2) + j - (LA + 2)) (by rw [hlenB]; omega)]
      rw [hlenB]
      rw [getD_append_right (encodeEvent A) (encodeEvent C) 0 j (by rw [hlenA]; omega)]
      rw [hlenA]
      congr 1
      omega
  have hcontents2 : contents q2 = encodeEvent A ++ encodeEvent C := by
    apply ext_getD _ _ 0
    · rw [contents_length, hused2]
      simp only [List.length_append, encodeEvent_length]
      omega
    · intro j hj
      rw [contents_length, hused2] at hj
      rw [← contents_getD q2 j (by rwa [hused2])]
      exact hwin j hj
  rw [hfinal]
  refine ⟨rfl, hcontents2, ?_⟩
  refine ⟨by rw [hq2size]; omega, by rw [hq2head, hq2size]; exact hh,
    by rw [hq2tail, hq2size]; exact Nat.mod_lt _ hsize, ?_,
    by rw [hused2, hq2size]; omega, ?_, ?_⟩
  · show q2.ioLastHead < q2.size
    rw [hq2, hq2size]
    show S.1.ioHead < q.size
    rw [hSh]
    exact hh
  · rw [hcontents2]
    simp [encodeList]
  · intro e he
    have : e = A ∨ e = C := by simpa using he
    rcases this with rfl | rfl
    · exact hv e (by simp)
    · exact hv e (by simp)

theorem claim_C2_witness :
    (jshPopIOEventOfType 2
        (jshPushEvent (jshPushEvent (jshPushEvent (initIOState 32) 1 [10]).1 2 [20, 21]).1
          3 []).1).1 = some (2, [20, 21]) ∧
    contents (jshPopIOEventOfType 2
        (jshPushEvent (jshPushEvent (jshPushEvent (initIOState 32) 1 [10]).1 2 [20, 21]).1
          3 []).1).2 = encodeEvent (1, [10]) ++ encodeEvent (3, []) ∧
    Abs (jshPopIOEventOfType 2
        (jshPushEvent (jshPushEvent (jshPushEvent (initIOState 32) 1 [10]).1 2 [20, 21]).1
          3 []).1).2 [(1, [10]), (3, [])] :=
  claim_C2 _ (1, [10]) (2, [20, 21]) (3, []) 2 (by decide) (by decide) (by decide)

/-! ## The idle-loop pop bound (claim C4) -/

theorem jsiIdleEventLoop_countP (h : IdleHandler)
    (hpush : ∀ ev rest e, e ∈ h.pushes ev rest → e.orig = false) :
    ∀ fuel q, ((jsiIdleEventLoop h fuel q).1.countP (fun e => e.orig))
      ≤ q.countP (fun e => e.orig) := by
  intro fuel
  induction fuel using Nat.strong_induction_on with
  | _ fuel ih =>
    intro q
    match fuel, q with
    | 0, q => simp [jsiIdleEventLoop]
    | f + 1, [] => simp [jsiIdleEventLoop]
    | f + 1, ev :: rest =>
      rw [jsiIdleEventLoop]
      have hih := ih (f - h.cost ev rest) (by omega)
        (rest.drop (h.extraPops ev rest) ++ h.pushes ev rest)
      have hzero : (h.pushes ev rest).countP (fun e => e.orig) = 0 := by
        rw [List.countP_eq_zero]
        intro a ha
        simp [hpush ev rest a ha]
      have hsplit : rest.countP (fun e => e.orig)
          = (rest.take (h.extraPops ev rest)).countP (fun e => e.orig)
            + (rest.drop (h.extraPops ev rest)).countP (fun e => e.orig) := by
        conv_lhs => rw [← List.take_append_drop (h.extraPops ev rest) rest]
        rw [List.countP_append]
      rw [List.countP_append, hzero] at hih
      simp only [List.countP_cons, List.countP_append]
      omega

/-- Claim C4: with K events in the queue when jsiIdle snapshots its budget
maxEvents from jshGetEventsUsed, at most K of the events popped during the
dispatch phase of that pass are events that were in the queue at the start
of the pass, even when the dispatched handlers push new events into the
queue (or pop further events, or spend extra budget) during the pass. -/
theorem claim_C4 (h : IdleHandler) (q : List QEvent)
    (hpush : ∀ ev rest e, e ∈ h.pushes ev rest → e.orig = false)
    (horig : ∀ e ∈ q, e.orig = true) :
    ((jsiIdlePass h q).1.countP (fun e => e.orig)) ≤ q.length := by
  have h1 := jsiIdleEventLoop_countP h hpush (eventsUsedBytes q) q
  have h2 : q.countP (fun e => e.orig) = q.length :=
    List.countP_eq_length.2 (fun e he => by simp [horig e he])
  rw [jsiIdlePass]
  omega

theorem claim_C4_witness :
    ((jsiIdlePass ⟨fun _ _ => 0, fun _ _ => [], fun _ _ => 0⟩
        [⟨true, 5, [7]⟩, ⟨true, 6, []⟩]).1.countP (fun e => e.orig))
      ≤ ([⟨true, 5, [7]⟩, ⟨true, 6, []⟩] : List QEvent).length :=
  claim_C4 ⟨fun _ _ => 0, fun _ _ => [], fun _ _ => 0⟩ [⟨true, 5, [7]⟩, ⟨true, 6, []⟩]
    (fun ev rest e he => absurd he (List.not_mem_nil e)) (by decide)

/-! ## Transmit ring basics -/

theorem txSet_size (q : TxState) (i : Nat) (v : TxItem) : (q.set i v).size = q.size := rfl

theorem txSet_txHead (q : TxState) (i : Nat) (v : TxItem) :
    (q.set i v).txHead = q.txHead := rfl

theorem txSet_txTail (q : TxState) (i : Nat) (v : TxItem) :
    (q.set i v).txTail = q.txTail := rfl

theorem txSet_deviceStates (q : TxState) (i : Nat) (v : TxItem) :
    (q.set i v).deviceStates = q.deviceStates := rfl

theorem txGet_set (q : TxState) (i : Nat) (v : TxItem) (j : Nat) :
    (q.set i v).get j = if j % q.size = i % q.size then v else q.get j := rfl

theorem txGet_congr (q : TxState) {a b : Nat} (h : a % q.size = b % q.size) :
    q.get a = q.get b := by
  simp only [TxState.get, h]

theorem txContents_length (q : TxState) : (txContents q).length = txUsed q := by
  simp [txContents]

theorem txContents_getD (q : TxState) (j : Nat) (hj : j < txUsed q) :
    q.get (q.txTail + j) = (txContents q).getD j ⟨0, 0⟩ := by
  simp only [txContents]
  rw [List.getD_eq_getElem _ _ (by simpa using hj)]
  simp

/-! ## The item-shifting loop (claim C5) -/

theorem txShiftLoop_spec (m : Nat) : ∀ (q : TxState) (fuel : Nat),
    q.txTail < q.size → m < q.size → m < fuel →
    TxShiftSpec q (txShiftLoop q ((q.txTail + m) % q.size) fuel) m := by
  induction m with
  | zero =>
    intro q fuel ht hm hf
    obtain ⟨f, rfl⟩ : ∃ f, fuel = f + 1 := ⟨fuel - 1, by omega⟩
    have hcur : (q.txTail + 0) % q.size = q.txTail := by
      rw [Nat.add_zero, Nat.mod_eq_of_lt ht]
    rw [hcur]
    have hres : txShiftLoop q q.txTail (f + 1) = q := by
      simp [txShiftLoop]
    rw [hres]
    exact ⟨rfl, rfl, rfl, rfl, fun k hk1 hk2 => by omega, fun j hj => rfl⟩
  | succ m ih =>
    intro q fuel ht hm hf
    obtain ⟨f, rfl⟩ : ∃ f, fuel = f + 1 := ⟨fuel - 1, by omega⟩
    have hs : 0 < q.size := by omega
    have hcur0 : (q.txTail + 0) % q.size = q.txTail := by
      rw [Nat.add_zero, Nat.mod_eq_of_lt ht]
    have hne : ¬ (q.txTail + (m + 1)) % q.size = q.txTail := by
      intro h
      have := ring_offset_inj hm hs (h.trans hcur0.symm)
      omega
    have hlast : ((q.txTail + (m + 1)) % q.size + q.size - 1) % q.size
        = (q.txTail + m) % q.size := by
      rw [ring_pred_mod hs,
        show q.txTail + (m + 1) + (q.size - 1) = q.txTail + m + q.size by omega,
        Nat.add_mod_right]
    have hstep : txShiftLoop q ((q.txTail + (m + 1)) % q.size) (f + 1)
        = txShiftLoop (q.set ((q.txTail + (m + 1)) % q.size)
            (q.get (((q.txTail + (m + 1)) % q.size + q.size - 1) % q.size)))
            (((q.txTail + (m + 1)) % q.size + q.size - 1) % q.size) f := by
      simp only [txShiftLoop, if_neg hne]
    rw [hstep, hlast]
    set q1 := q.set ((q.txTail + (m + 1)) % q.size) (q.get ((q.txTail + m) % q.size)) with hq1
    have e1 : q1.size = q.size := rfl
    have e2 : q1.txTail = q.txTail := rfl
    have hIH := ih q1 f (by rw [e1, e2]; exact ht) (by rw [e1]; omega) (by omega)
    rw [e1, e2] at hIH
    obtain ⟨hsz, hhd, htl, hds, hgt, hout⟩ := hIH
    set r := txShiftLoop q1 ((q.txTail + m) % q.size) f with hr
    have hq1get : ∀ x, ¬ x % q.size = (q.txTail + (m + 1)) % q.size → q1.get x = q.get x := by
      intro x hx
      have hx2 : ¬ x % q.size = ((q.txTail + (m + 1)) % q.size) % q.size := by
        rw [mod_mod]; exact hx
      rw [hq1, txGet_set, if_neg hx2]
    have hq1cur : q1.buf ((q.txTail + (m + 1)) % q.size) = q.get ((q.txTail + m) % q.size) := by
      rw [hq1]
      show (if (q.txTail + (m + 1)) % q.size = ((q.txTail + (m + 1)) % q.size) % q.size
        then q.get ((q.txTail + m) % q.size) else _) = _
      rw [if_pos mod_mod.symm]
    refine ⟨hsz.trans e1, hhd, htl.trans e2, hds, ?_, ?_⟩
    · intro k hk1 hk2
      rcases Nat.lt_or_ge k (m + 1) with hk | hk
      · have hne2 : ¬ (q.txTail + k - 1) % q.size = (q.txTail + (m + 1)) % q.size := by
          rw [show q.txTail + k - 1 = q.txTail + (k - 1) by omega]
          exact ring_offset_ne (by omega) hm (by omega)
        exact (hgt k hk1 (by omega)).trans (hq1get (q.txTail + k - 1) hne2)
      · have hk3 : k = m + 1 := by omega
        subst hk3
        rw [show q.txTail + (m + 1) - 1 = q.txTail + m by omega]
        have hg : r.get (q.txTail + (m + 1)) = r.buf ((q.txTail + (m + 1)) % q.size) := by
          simp only [TxState.get]
          rw [hsz, e1]
        have h1 := hout (q.txTail + (m + 1))
          (fun kk hkk => ring_offset_ne hm (by omega) (by omega))
        have h3 : q.get ((q.txTail + m) % q.size) = q.get (q.txTail + m) :=
          txGet_congr q mod_mod
        exact hg.trans (h1.trans (hq1cur.trans h3))
    · intro j hj
      have h1 := hout j (fun kk hkk => hj kk (by omega))
      have h2 : q1.buf (j % q.size) = q.buf (j % q.size) := by
        rw [hq1]
        show (if j % q.size = ((q.txTail + (m + 1)) % q.size) % q.size
          then _ else q.buf (j % q.size)) = _
        rw [if_neg (by rw [mod_mod]; exact hj (m + 1) (by omega))]
      exact h1.trans h2

/-! ## The scan loop of jshGetCharToTransmit -/

theorem txScan_none (device : Nat) : ∀ (fuel : Nat) (q : TxState) (j : Nat),
    q.txHead < q.size → q.txTail < q.size → txUsed q + 1 ≤ q.size →
    j ≤ txUsed q → txUsed q - j < fuel →
    (∀ k, j ≤ k → k < txUsed q →
      ¬ IOEVENTFLAGS_GETTYPE (q.get (q.txTail + k)).flags = device) →
    txScan device q ((q.txTail + j) % q.size) fuel = (none, q) := by
  intro fuel
  induction fuel with
  | zero => intro q j hh ht hu hj hf hnm; omega
  | succ f ih =>
    intro q j hh ht hu hj hf hnm
    have hhead : q.txHead = (q.txTail + txUsed q) % q.size := ringUsed_head_eq hh ht
    rcases Nat.eq_or_lt_of_le hj with hju | hju
    · have hstop : q.txHead = (q.txTail + j) % q.size := by rw [← hju] at hhead; exact hhead
      simp only [txScan, if_pos hstop]
    · have hne : ¬ q.txHead = (q.txTail + j) % q.size := by
        rw [hhead]
        exact ring_offset_ne (by omega) (by omega) (by omega)
      have hmiss : ¬ IOEVENTFLAGS_GETTYPE (q.get ((q.txTail + j) % q.size)).flags = device := by
        rw [txGet_congr q mod_mod]
        exact hnm j (Nat.le_refl j) hju
      have hnext : ((q.txTail + j) % q.size + 1) % q.size = (q.txTail + (j + 1)) % q.size := by
        rw [mod_add_cancel, Nat.add_assoc]
      simp only [txScan, if_neg hne, if_neg hmiss]
      rw [hnext]
      exact ih q (j + 1) hh ht hu (by omega) (by omega)
        (fun k hk1 hk2 => hnm k (by omega) hk2)

theorem txScan_found (device : Nat) : ∀ (fuel : Nat) (q : TxState) (j i : Nat),
    q.txHead < q.size → q.txTail < q.size → txUsed q + 1 ≤ q.size →
    j ≤ i → i < txUsed q → i - j < fuel →
    (∀ k, j ≤ k → k < i → ¬ IOEVENTFLAGS_GETTYPE (q.get (q.txTail + k)).flags = device) →
    IOEVENTFLAGS_GETTYPE (q.get (q.txTail + i)).flags = device →
    ∃ q1, TxShiftSpec q q1 i ∧
      txScan device q ((q.txTail + j) % q.size) fuel
        = (some (q.get (q.txTail + i)).data,
           { q1 with txTail := (q1.txTail + 1) % q1.size }) := by
  intro fuel
  induction fuel with
  | zero => intro q j i hh ht hu hji hi hf hnm hm; omega
  | succ f ih =>
    intro q j i hh ht hu hji hi hf hnm hm
    have hhead : q.txHead = (q.txTail + txUsed q) % q.size := ringUsed_head_eq hh ht
    have hne : ¬ q.txHead = (q.txTail + j) % q.size := by
      rw [hhead]
      exact ring_offset_ne (by omega) (by omega) (by omega)
    rcases Nat.eq_or_lt_of_le hji with hji2 | hji2
    · subst hji2
      have hhit : IOEVENTFLAGS_GETTYPE (q.get ((q.txTail + j) % q.size)).flags = device := by
        rw [txGet_congr q mod_mod]; exact hm
      have hdata : (q.get ((q.txTail + j) % q.size)).data = (q.get (q.txTail + j)).data := by
        rw [txGet_congr q mod_mod]
      rcases Nat.eq_zero_or_pos j with hj0 | hj0
      · subst hj0
        have htail : (q.txTail + 0) % q.size = q.txTail := by
          rw [Nat.add_zero, Nat.mod_eq_of_lt ht]
        refine ⟨q, ⟨rfl, rfl, rfl, rfl, fun k hk1 hk2 => by omega, fun j hj => rfl⟩, ?_⟩
        simp only [txScan, if_neg hne, if_pos hhit]
        rw [hdata, htail]
        simp
      · have hnott : ¬ (q.txTail + j) % q.size = q.txTail := by
          intro h
          have htail : (q.txTail + 0) % q.size = q.txTail := by
            rw [Nat.add_zero, Nat.mod_eq_of_lt ht]
          have := ring_offset_inj (a := j) (b := 0) (by omega) (by omega)
            (h.trans htail.symm)
          omega
        have hspec := txShiftLoop_spec j q (q.size + 1) ht (by omega) (by omega)
        refine ⟨txShiftLoop q ((q.txTail + j) % q.size) (q.size + 1), hspec, ?_⟩
        simp only [txScan, if_neg hne, if_pos hhit]
        rw [hdata]
        simp only [if_pos hnott]
    · have hmiss : ¬ IOEVENTFLAGS_GETTYPE (q.get ((q.txTail + j) % q.size)).flags = device := by
        rw [txGet_congr q mod_mod]
        exact hnm j (Nat.le_refl j) hji2
      have hnext : ((q.txTail + j) % q.size + 1) % q.size = (q.txTail + (j + 1)) % q.size := by
        rw [mod_add_cancel, Nat.add_assoc]
      simp only [txScan, if_neg hne, if_neg hmiss]
      rw [hnext]
      exact ih q (j + 1) i hh ht hu (by omega) hi (by omega)
        (fun k hk1 hk2 => hnm k (by omega) hk2) hm

/-! ## jshGetCharToTransmit on an abstract transmit queue -/

theorem getChar_scan (device : Nat) (q : TxState) (hnp : txNoPending device q) :
    jshGetCharToTransmit device q = txScan device q q.txTail (q.size + 1) := by
  unfold jshGetCharToTransmit
  by_cases h : DEVICE_HAS_DEVICE_STATE device
  · simp [h, hnp.1, hnp.2]
  · simp [h]

theorem getChar_none (device : Nat) (q : TxState) (l : List TxItem)
    (hA : TxAbs q l) (hnp : txNoPending device q)
    (hnm : ∀ x ∈ l, ¬ IOEVENTFLAGS_GETTYPE x.flags = device) :
    jshGetCharToTransmit device q = (none, q) := by
  obtain ⟨h4, hh, ht, hu, hc⟩ := hA
  rw [getChar_scan device q hnp]
  have htail : (q.txTail + 0) % q.size = q.txTail := by
    rw [Nat.add_zero, Nat.mod_eq_of_lt ht]
  rw [← htail]
  refine txScan_none device (q.size + 1) q 0 hh ht hu (by omega) (by omega) ?_
  intro k hk1 hk2
  have hk3 : k < l.length := by rw [← hc, txContents_length]; exact hk2
  rw [txContents_getD q k hk2, hc, List.getD_eq_getElem _ _ hk3]
  exact hnm _ (List.getElem_mem _)

theorem getChar_found (device : Nat) (q : TxState) (l1 : List TxItem) (e : TxItem)
    (l2 : List TxItem)
    (hA : TxAbs q (l1 ++ e :: l2)) (hnp : txNoPending device q)
    (hnm : ∀ x ∈ l1, ¬ IOEVENTFLAGS_GETTYPE x.flags = device)
    (hm : IOEVENTFLAGS_GETTYPE e.flags = device) :
    (jshGetCharToTransmit device q).1 = some e.data ∧
    TxAbs (jshGetCharToTransmit device q).2 (l1 ++ l2) ∧
    (jshGetCharToTransmit device q).2.deviceStates = q.deviceStates := by
  obtain ⟨h4, hh, ht, hu, hc⟩ := hA
  have hlen : l1.length + 1 + l2.length = txUsed q := by
    rw [← txContents_length q, hc]
    simp
    omega
  have hi : l1.length < txUsed q := by omega
  have hlook : ∀ k, k < txUsed q → q.get (q.txTail + k) = (l1 ++ e :: l2).getD k ⟨0, 0⟩ :=
    fun k hk => by rw [txContents_getD q k hk, hc]
  have hge : q.get (q.txTail + l1.length) = e := by
    rw [hlook l1.length hi, getD_append_right l1 (e :: l2) ⟨0, 0⟩ l1.length (Nat.le_refl _)]
    simp
  have hm2 : IOEVENTFLAGS_GETTYPE (q.get (q.txTail + l1.length)).flags = device := by
    rw [hge]; exact hm
  have hnm2 : ∀ k, 0 ≤ k → k < l1.length →
      ¬ IOEVENTFLAGS_GETTYPE (q.get (q.txTail + k)).flags = device := by
    intro k hk1 hk2
    rw [hlook k (by omega), getD_append_left l1 (e :: l2) ⟨0, 0⟩ k hk2,
      List.getD_eq_getElem _ _ hk2]
    exact hnm _ (List.getElem_mem _)
  obtain ⟨q1, hspec, heq⟩ := txScan_found device (q.size + 1) q 0 l1.length hh ht hu
    (Nat.zero_le _) hi (by omega) hnm2 hm2
  obtain ⟨hq1s, hq1h, hq1t, hq1d, hgt, hout⟩ := hspec
  have htail : (q.txTail + 0) % q.size = q.txTail := by
    rw [Nat.add_zero, Nat.mod_eq_of_lt ht]
  rw [getChar_scan device q hnp, ← htail, heq]
  set q3 : TxState := { q1 with txTail := (q1.txTail + 1) % q1.size } with hq3
  have hq3s : q3.size = q.size := hq1s
  have hq3h : q3.txHead = q.txHead := hq1h
  have hq3t : q3.txTail = (q.txTail + 1) % q.size := by
    show (q1.txTail + 1) % q1.size = (q.txTail + 1) % q.size
    rw [hq1s, hq1t]
  have hq3d : q3.deviceStates = q.deviceStates := hq1d
  have hs : 0 < q.size := by omega
  have hu1 : 1 ≤ txUsed q := by omega
  have hhead : q.txHead = (q.txTail + txUsed q) % q.size := ringUsed_head_eq hh ht
  have hused3 : txUsed q3 = txUsed q - 1 := by
    show ringUsed q3.size q3.txHead q3.txTail = txUsed q - 1
    rw [hq3s, hq3h, hq3t]
    refine ringUsed_of_head (Nat.mod_lt _ hs) (by omega) ?_
    rw [mod_add_cancel, show q.txTail + 1 + (txUsed q - 1) = q.txTail + txUsed q by omega]
    exact hhead
  have hget3 : ∀ k, k < txUsed q - 1 → q3.get (q3.txTail + k) = q3.get (q.txTail + (k + 1)) := by
    intro k hk
    refine txGet_congr q3 ?_
    rw [hq3s, hq3t, mod_add_cancel,
      show q.txTail + 1 + k = q.txTail + (k + 1) by omega]
  have hitem : ∀ k, k < txUsed q - 1 →
      q3.get (q3.txTail + k) = (l1 ++ l2).getD k ⟨0, 0⟩ := by
    intro k hk
    rw [hget3 k hk]
    rcases Nat.lt_or_ge k l1.length with hkl | hkl
    · have h1 : q3.get (q.txTail + (k + 1)) = q1.get (q.txTail + (k + 1)) := rfl
      rw [h1, hgt (k + 1) (by omega) (by omega),
        show q.txTail + (k + 1) - 1 = q.txTail + k by omega,
        hlook k (by omega), getD_append_left l1 (e :: l2) ⟨0, 0⟩ k hkl,
        getD_append_left l1 l2 ⟨0, 0⟩ k hkl]
    · have hub : ∀ kk, kk ≤ l1.length → ¬ (q.txTail + (k + 1)) % q.size
          = (q.txTail + kk) % q.size := by
        intro kk hkk
        exact ring_offset_ne (by omega) (by omega) (by omega)
      have h1 : q3.get (q.txTail + (k + 1)) = q1.buf ((q.txTail + (k + 1)) % q1.size) := rfl
      have h2 : (q.txTail + (k + 1)) % q1.size = (q.txTail + (k + 1)) % q.size := by
        rw [hq1s]
      rw [h1, h2, hout (q.txTail + (k + 1)) hub]
      have h3 : q.buf ((q.txTail + (k + 1)) % q.size) = q.get (q.txTail + (k + 1)) := rfl
      rw [h3, hlook (k + 1) (by omega),
        getD_append_right l1 (e :: l2) ⟨0, 0⟩ (k + 1) (by omega),
        getD_append_right l1 l2 ⟨0, 0⟩ k hkl,
        show k + 1 - l1.length = (k - l1.length) + 1 by omega]
      simp [List.getD_cons_succ]
  refine ⟨by rw [hge], ⟨h4.trans_eq hq3s.symm, ?_, ?_, ?_, ?_⟩, hq3d⟩
  · rw [hq3s, hq3h]; exact hh
  · rw [hq3s, hq3t]; exact Nat.mod_lt _ hs
  · rw [hq3s, hused3]; omega
  · refine ext_getD (txContents q3) (l1 ++ l2) ⟨0, 0⟩ ?_ ?_
    · rw [txContents_length, hused3]
      simp
      omega
    · intro i hi2
      rw [txContents_length, hused3] at hi2
      rw [← txContents_getD q3 i (by rw [hused3]; exact hi2), hitem i hi2]

/-! ## Draining one device in FIFO order (claim C5) -/

theorem first_split {α : Type} (p : α → Bool) : ∀ l : List α,
    (∀ x ∈ l, p x = false) ∨
    ∃ l1 e l2, l = l1 ++ e :: l2 ∧ (∀ x ∈ l1, p x = false) ∧ p e = true := by
  intro l
  induction l with
  | nil => exact Or.inl (fun x hx => absurd hx (List.not_mem_nil x))
  | cons a l ih =>
    by_cases ha : p a = true
    · exact Or.inr ⟨[], a, l, rfl, fun x hx => absurd hx (List.not_mem_nil x), ha⟩
    · have ha2 : p a = false := by revert ha; cases p a <;> simp
      rcases ih with h | ⟨l1, e, l2, hsplit, hl1, he⟩
      · refine Or.inl ?_
        intro x hx
        rcases List.mem_cons.1 hx with h1 | h1
        · rw [h1]; exact ha2
        · exact h x h1
      · refine Or.inr ⟨a :: l1, e, l2, by rw [hsplit]; rfl, ?_, he⟩
        intro x hx
        rcases List.mem_cons.1 hx with h1 | h1
        · rw [h1]; exact ha2
        · exact hl1 x h1

theorem txDrain_eq (device : Nat) : ∀ (fuel : Nat) (q : TxState) (l : List TxItem),
    TxAbs q l → txNoPending device q → l.length < fuel →
    txDrain device q fuel
      = (l.filter (fun x => decide (IOEVENTFLAGS_GETTYPE x.flags = device))).map
          (fun x => x.data) := by
  intro fuel
  induction fuel with
  | zero => intro q l hA hnp hf; omega
  | succ f ih =>
    intro q l hA hnp hf
    rcases first_split (fun x => decide (IOEVENTFLAGS_GETTYPE x.flags = device)) l with
      hno | ⟨l1, e, l2, hsplit, hl1, he⟩
    · have hnm : ∀ x ∈ l, ¬ IOEVENTFLAGS_GETTYPE x.flags = device := by
        intro x hx
        have := hno x hx
        simpa using this
      have hstop := getChar_none device q l hA hnp hnm
      have hfilter : l.filter (fun x => decide (IOEVENTFLAGS_GETTYPE x.flags = device)) = [] :=
        List.filter_eq_nil.2 (fun x hx => by simp [hno x hx])
      simp only [txDrain, hstop, hfilter, List.map_nil]
    · subst hsplit
      have hnm1 : ∀ x ∈ l1, ¬ IOEVENTFLAGS_GETTYPE x.flags = device := by
        intro x hx
        have := hl1 x hx
        simpa using this
      have hme : IOEVENTFLAGS_GETTYPE e.flags = device := by simpa using he
      obtain ⟨h1, h2, h3⟩ := getChar_found device q l1 e l2 hA hnp hnm1 hme
      have hnp2 : txNoPending device (jshGetCharToTransmit device q).2 := by
        unfold txNoPending
        rw [h3]
        exact hnp
      have hstep : txDrain device q (f + 1)
          = e.data :: txDrain device (jshGetCharToTransmit device q).2 f := by
        rcases hr : jshGetCharToTransmit device q with ⟨c, q2⟩
        rw [hr] at h1
        have hc : c = some e.data := h1
        subst hc
        simp only [txDrain, hr]
      rw [hstep, ih (jshGetCharToTransmit device q).2 (l1 ++ l2) h2 hnp2 (by
        simp only [List.length_append] at hf ⊢
        simp at hf
        omega)]
      rw [List.filter_append, List.filter_append]
      rw [List.filter_eq_nil.2 (fun x hx => by simp [hl1 x hx])]
      simp [he]

/-! ## Enqueueing with jshTransmit -/

theorem tx_not_full (q : TxState) (hh : q.txHead < q.size) (ht : q.txTail < q.size)
    (hroom : txUsed q + 2 ≤ q.size) : ¬ (q.txHead + 1) % q.size = q.txTail := by
  intro h
  have hhead : q.txHead = (q.txTail + txUsed q) % q.size := ringUsed_head_eq hh ht
  have h2 : (q.txTail + (txUsed q + 1)) % q.size = (q.txTail + 0) % q.size := by
    calc (q.txTail + (txUsed q + 1)) % q.size
        = (q.txTail + txUsed q + 1) % q.size := by rw [Nat.add_assoc]
      _ = q.txTail := by rw [← mod_add_cancel, ← hhead]; exact h
      _ = (q.txTail + 0) % q.size := by rw [Nat.add_zero, Nat.mod_eq_of_lt ht]
  have := ring_offset_inj (by omega) (by omega) h2
  omega

theorem jshTransmit_step (idleStep : TxState → TxState) (device data : Nat) (q : TxState)
    (fuel : Nat) (hdev : 3 ≤ device)
    (hnf : ¬ (q.txHead + 1) % q.size = q.txTail) :
    jshTransmit idleStep device data false q (fuel + 1)
      = TxResult.sent (txStore q ((q.txHead + 1) % q.size) device data) := by
  have h1 : ¬ (device = EV_LOOPBACKA ∨ device = EV_LOOPBACKB) := by
    unfold EV_LOOPBACKA EV_LOOPBACKB
    omega
  have h2 : ¬ device = EV_NONE := by
    unfold EV_NONE
    omega
  have hwait : txWaitLoop idleStep ((q.txHead + 1) % q.size) false q (fuel + 1)
      = WaitRes.ready q := by
    simp only [txWaitLoop, if_neg hnf]
  simp only [jshTransmit, if_neg h1, if_neg h2, hwait]
  by_cases hc : q.console = EV_LIMBO
  · rw [if_neg (fun h => h.2 hc)]
  · rw [if_neg (fun h => by simp [hc] at h)]

theorem txStore_abs (q : TxState) (l : List TxItem) (dev data : Nat)
    (hA : TxAbs q l) (hroom : txUsed q + 2 ≤ q.size) :
    TxAbs (txStore q ((q.txHead + 1) % q.size) dev data) (l ++ [⟨dev, data⟩]) ∧
    (txStore q ((q.txHead + 1) % q.size) dev data).deviceStates = q.deviceStates := by
  obtain ⟨h4, hh, ht, hu, hc⟩ := hA
  have hs : 0 < q.size := by omega
  have hhead : q.txHead = (q.txTail + txUsed q) % q.size := ringUsed_head_eq hh ht
  set q2 : TxState := txStore q ((q.txHead + 1) % q.size) dev data with hq2
  have e1 : q2.size = q.size := rfl
  have e2 : q2.txTail = q.txTail := rfl
  have e3 : q2.txHead = (q.txHead + 1) % q.size := rfl
  have e4 : q2.deviceStates = q.deviceStates := rfl
  have e5 : ∀ j, q2.get j = (q.set q.txHead ⟨dev, data⟩).get j := fun j => rfl
  have hlenl : l.length = txUsed q := by rw [← hc]; exact txContents_length q
  have hused2 : txUsed q2 = txUsed q + 1 := by
    show ringUsed q2.size q2.txHead q2.txTail = txUsed q + 1
    rw [e1, e2, e3]
    refine ringUsed_of_head ht (by omega) ?_
    rw [hhead, mod_add_cancel, Nat.add_assoc]
  have hitem : ∀ k, k < txUsed q + 1 →
      q2.get (q.txTail + k) = (l ++ [(⟨dev, data⟩ : TxItem)]).getD k ⟨0, 0⟩ := by
    intro k hk
    rw [e5, txGet_set]
    rcases Nat.lt_or_ge k (txUsed q) with hku | hku
    · have hne : ¬ (q.txTail + k) % q.size = q.txHead % q.size := by
        rw [Nat.mod_eq_of_lt hh, hhead]
        exact ring_offset_ne (by omega) (by omega) (by omega)
      rw [if_neg hne, txContents_getD q k hku, hc,
        getD_append_left l [⟨dev, data⟩] ⟨0, 0⟩ k (by omega)]
    · have hk2 : k = txUsed q := by omega
      subst hk2
      have hpos : (q.txTail + txUsed q) % q.size = q.txHead % q.size := by
        rw [Nat.mod_eq_of_lt hh, hhead]
      rw [if_pos hpos, getD_append_right l [⟨dev, data⟩] ⟨0, 0⟩ (txUsed q) (by omega)]
      rw [hlenl]
      simp
  refine ⟨⟨by rw [e1]; exact h4, ?_, ?_, ?_, ?_⟩, e4⟩
  · rw [e1, e3]; exact Nat.mod_lt _ hs
  · rw [e1, e2]; exact ht
  · rw [e1, hused2]; omega
  · refine ext_getD (txContents q2) (l ++ [⟨dev, data⟩]) ⟨0, 0⟩ ?_ ?_
    · rw [txContents_length, hused2]
      simp
      omega
    · intro i hi
      rw [txContents_length, hused2] at hi
      rw [← txContents_getD q2 i (by rw [hused2]; exact hi)]
      have : q2.get (q2.txTail + i) = q2.get (q.txTail + i) := by rw [e2]
      rw [this, hitem i hi]

theorem initTx_abs (size : Nat) (h : 4 ≤ size) : TxAbs (initTxState size) [] := by
  refine ⟨h, by simp [initTxState]; omega, by simp [initTxState]; omega, ?_, ?_⟩
  · simp [txUsed, ringUsed, initTxState]
    omega
  · simp [txContents, txUsed, ringUsed, initTxState]

theorem runTx_ok (idleStep : TxState → TxState) : ∀ (xs : List (Nat × Nat)) (q : TxState)
    (l : List TxItem),
    TxAbs q l → txUsed q + xs.length + 1 ≤ q.size → (∀ x ∈ xs, 3 ≤ x.1) →
    ∃ qf, runTxList idleStep false q xs = some qf ∧
      TxAbs qf (l ++ xs.map (fun x => ⟨x.1, x.2⟩)) ∧
      qf.deviceStates = q.deviceStates := by
  intro xs
  induction xs with
  | nil =>
    intro q l hA hcap hdev
    exact ⟨q, rfl, by simpa using hA, rfl⟩
  | cons x xs ih =>
    intro q l hA hcap hdev
    have hroom : txUsed q + 2 ≤ q.size := by
      simp only [List.length_cons] at hcap
      omega
    have hnf : ¬ (q.txHead + 1) % q.size = q.txTail :=
      tx_not_full q hA.2.1 hA.2.2.1 hroom
    have hstep := jshTransmit_step idleStep x.1 x.2 q 0 (hdev x (List.mem_cons_self x xs)) hnf
    obtain ⟨habs, hds⟩ := txStore_abs q l x.1 x.2 hA hroom
    have hused2 : txUsed (txStore q ((q.txHead + 1) % q.size) x.1 x.2) = txUsed q + 1 := by
      rw [← txContents_length, habs.2.2.2.2]
      have hlenl : l.length = txUsed q := by
        rw [← hA.2.2.2.2]; exact txContents_length q
      simp [hlenl]
    obtain ⟨qf, hrun, hfabs, hfds⟩ := ih (txStore q ((q.txHead + 1) % q.size) x.1 x.2)
      (l ++ [⟨x.1, x.2⟩]) habs
      (by
        have e1 : (txStore q ((q.txHead + 1) % q.size) x.1 x.2).size = q.size := rfl
        rw [hused2, e1]
        simp only [List.length_cons] at hcap
        omega)
      (fun y hy => hdev y (List.mem_cons_of_mem x hy))
    refine ⟨qf, ?_, ?_, hfds.trans hds⟩
    · simp only [runTxList, hstep]
      exact hrun
    · rw [List.append_assoc] at hfabs
      exact hfabs

/-! ## Filtering the transmitted pairs -/

theorem filter_map_tx (device : Nat) : ∀ xs : List (Nat × Nat),
    (((xs.map (fun x => (⟨x.1, x.2⟩ : TxItem))).filter
        (fun x => decide (IOEVENTFLAGS_GETTYPE x.flags = device))).map (fun x => x.data))
      = (xs.filter (fun x => decide (IOEVENTFLAGS_GETTYPE x.1 = device))).map
          (fun x => x.2) := by
  intro xs
  induction xs with
  | nil => rfl
  | cons x xs ih =>
    simp only [List.map_cons, List.filter_cons]
    by_cases h : IOEVENTFLAGS_GETTYPE x.1 = device
    · simp only [h, decide_True, if_true]
      simp [ih]
    · simp only [h, decide_False, if_false]
      simp [h, ih]

/-- C5: after any sequence of jshTransmit calls for ordinary devices into an
empty transmit buffer, repeatedly calling jshGetCharToTransmit for one
device returns exactly that device's bytes, in the FIFO order in which they
were transmitted, even though bytes for other devices are interleaved in
the buffer (the shift loop moves the earlier non-matching items one slot
toward the tail, preserving their relative order, which the later calls
then observe). -/
theorem claim_C5 (size : Nat) (xs : List (Nat × Nat)) (device : Nat)
    (hsize : 4 ≤ size) (hlen : xs.length + 1 ≤ size) (hdev : ∀ x ∈ xs, 3 ≤ x.1) :
    ∃ qf, runTxList (fun s => s) false (initTxState size) xs = some qf ∧
      txDrain device qf (xs.length + 1)
        = (xs.filter (fun x => decide (IOEVENTFLAGS_GETTYPE x.1 = device))).map
            (fun x => x.2) := by
  have h0 : txUsed (initTxState size) = 0 := by
    simp [txUsed, ringUsed, initTxState]
  obtain ⟨qf, hrun, habs, hds⟩ := runTx_ok (fun s => s) xs (initTxState size) []
    (initTx_abs size hsize) (by rw [h0]; simpa using hlen) hdev
  refine ⟨qf, hrun, ?_⟩
  have hnp : txNoPending device qf := by
    unfold txNoPending
    rw [hds]
    exact ⟨rfl, rfl⟩
  rw [txDrain_eq device (xs.length + 1) qf ([] ++ xs.map (fun x => ⟨x.1, x.2⟩)) habs hnp
    (by simp)]
  simp only [List.nil_append]
  exact filter_map_tx device xs

theorem claim_C5_witness : ∃ qf,
    runTxList (fun s => s) false (initTxState 8) [(4, 10), (5, 20), (4, 30)] = some qf ∧
    txDrain 4 qf 4 = [10, 30] :=
  claim_C5 8 [(4, 10), (5, 20), (4, 30)] 4 (by decide) (by decide) (by decide)

/-! ## The busy-wait of jshTransmit (claim C6) -/

theorem txWaitLoop_run (idleStep : TxState → TxState) (hn : Nat) : ∀ (k : Nat) (q : TxState),
    (∀ j, j < k → hn = (idleStep^[j] q).txTail) →
    ¬ hn = (idleStep^[k] q).txTail →
    txWaitLoop idleStep hn false q (k + 1) = WaitRes.ready (idleStep^[k] q) := by
  intro k
  induction k with
  | zero =>
    intro q hj hk
    simp only [Function.iterate_zero, id_eq] at hk ⊢
    simp only [txWaitLoop, if_neg hk]
  | succ k ih =>
    intro q hj hk
    have h0 : hn = q.txTail := by
      have := hj 0 (by omega)
      simpa using this
    have hstep : txWaitLoop idleStep hn false q (k + 1 + 1)
        = txWaitLoop idleStep hn false (idleStep q) (k + 1) := by
      simp [txWaitLoop, h0]
    rw [hstep,
      ih (idleStep q)
        (fun j hjj => by rw [← Function.iterate_succ_apply]; exact hj (j + 1) (by omega))
        (by rw [← Function.iterate_succ_apply]; exact hk),
      Function.iterate_succ_apply]

/-- C6: calling jshTransmit while the transmit buffer is full either drops
or waits, depending on context.  From interrupt context the call returns at
once with the byte dropped and only the JSERR_BUFFER_FULL flag raised; from
thread context the call spins, applying the platform idle step once per
iteration, and enqueues the byte into the first state in which space has
freed (after k idle steps, when the buffer was still full at every earlier
step). -/
theorem claim_C6 (idleStep : TxState → TxState) (device data : Nat) (q : TxState)
    (k fuel : Nat) (hdev : 4 ≤ device)
    (hfull : (q.txHead + 1) % q.size = q.txTail)
    (hfree : ¬ (q.txHead + 1) % q.size = (idleStep^[k] q).txTail)
    (hbusy : ∀ j, j < k → (q.txHead + 1) % q.size = (idleStep^[j] q).txTail) :
    jshTransmit idleStep device data true q (fuel + 1)
      = TxResult.droppedIRQFull { q with err := { q.err with bufferFull := true } } ∧
    jshTransmit idleStep device data false q (k + 1)
      = TxResult.sent
          (txStore (idleStep^[k] q) ((q.txHead + 1) % q.size) device data) := by
  have h1 : ¬ (device = EV_LOOPBACKA ∨ device = EV_LOOPBACKB) := by
    unfold EV_LOOPBACKA EV_LOOPBACKB
    omega
  have h2 : ¬ device = EV_NONE := by
    unfold EV_NONE
    omega
  have hd3 : ¬ device = EV_LIMBO := by
    unfold EV_LIMBO
    omega
  constructor
  · have hwait : txWaitLoop idleStep ((q.txHead + 1) % q.size) true q (fuel + 1)
        = WaitRes.dropped { q with err := { q.err with bufferFull := true } } := by
      simp [txWaitLoop, hfull]
    simp only [jshTransmit, if_neg h1, if_neg h2, hwait]
  · have hwait := txWaitLoop_run idleStep ((q.txHead + 1) % q.size) k q hbusy hfree
    simp only [jshTransmit, if_neg h1, if_neg h2, hwait]
    rw [if_neg (fun h => by simp [hd3] at h)]

theorem claim_C6_witness :
    jshTransmit txDrainStep 4 7 true txFullExample 1
      = TxResult.droppedIRQFull
          { txFullExample with err := { txFullExample.err with bufferFull := true } } ∧
    jshTransmit txDrainStep 4 7 false txFullExample 2
      = TxResult.sent (txStore (txDrainStep^[1] txFullExample)
          ((txFullExample.txHead + 1) % txFullExample.size) 4 7) :=
  claim_C6 txDrainStep 4 7 txFullExample 1 0 (by decide) (by decide) (by decide)
    (by decide)

/-! ## Flow control transitions (claim C7) -/

/-- C7: with software XON/XOFF flow control enabled on a device that has a
serial device state, asking the host to stop sets XOFF_PENDING exactly when
neither XOFF_SENT nor XOFF_PENDING is already set, asking it to resume sets
XON_PENDING exactly when XOFF_SENT is latched and XON_PENDING is clear (in
each case leaving the other bits alone), and jshGetCharToTransmit delivers
a pending XOFF (19, 0x13) or XON (17, 0x11) control byte before looking at
any queued data byte, turning XOFF_PENDING into XOFF_SENT on sending XOFF
and clearing both XON_PENDING and XOFF_SENT on sending XON, without
touching the transmit ring. -/
theorem claim_C7 (q : TxState) (device : Nat)
    (hdev : DEVICE_HAS_DEVICE_STATE device = true)
    (hxx : (sds q device).flowXonXoff = true) :
    ((sds (jshSetFlowControlXON q device false) device).xoffPending
        = ((sds q device).xoffPending
            || (!(sds q device).xoffSent && !(sds q device).xoffPending))
      ∧ (sds (jshSetFlowControlXON q device false) device).xoffSent
          = (sds q device).xoffSent
      ∧ (sds (jshSetFlowControlXON q device false) device).xonPending
          = (sds q device).xonPending) ∧
    ((sds (jshSetFlowControlXON q device true) device).xonPending
        = ((sds q device).xonPending
            || ((sds q device).xoffSent && !(sds q device).xonPending))
      ∧ (sds (jshSetFlowControlXON q device true) device).xoffSent
          = (sds q device).xoffSent
      ∧ (sds (jshSetFlowControlXON q device true) device).xoffPending
          = (sds q device).xoffPending) ∧
    ((sds q device).xoffPending = true →
      (jshGetCharToTransmit device q).1 = some 19
      ∧ (sds (jshGetCharToTransmit device q).2 device).xoffPending = false
      ∧ (sds (jshGetCharToTransmit device q).2 device).xoffSent = true
      ∧ (jshGetCharToTransmit device q).2.buf = q.buf
      ∧ (jshGetCharToTransmit device q).2.txHead = q.txHead
      ∧ (jshGetCharToTransmit device q).2.txTail = q.txTail) ∧
    ((sds q device).xoffPending = false → (sds q device).xonPending = true →
      (jshGetCharToTransmit device q).1 = some 17
      ∧ (sds (jshGetCharToTransmit device q).2 device).xonPending = false
      ∧ (sds (jshGetCharToTransmit device q).2 device).xoffSent = false
      ∧ (jshGetCharToTransmit device q).2.buf = q.buf
      ∧ (jshGetCharToTransmit device q).2.txHead = q.txHead
      ∧ (jshGetCharToTransmit device q).2.txTail = q.txTail) := by
  refine ⟨?_, ?_, ?_, ?_⟩
  · cases hcp : q.ctsPins (TO_SERIAL_DEVICE_STATE device) <;>
    cases hso : (q.deviceStates (TO_SERIAL_DEVICE_STATE device)).xoffSent <;>
    cases hsp : (q.deviceStates (TO_SERIAL_DEVICE_STATE device)).xoffPending <;>
      simp_all [sds, jshSetFlowControlXON, updateDevState, jshUSARTKick]
  · cases hcp : q.ctsPins (TO_SERIAL_DEVICE_STATE device) <;>
    cases hso : (q.deviceStates (TO_SERIAL_DEVICE_STATE device)).xoffSent <;>
    cases hsn : (q.deviceStates (TO_SERIAL_DEVICE_STATE device)).xonPending <;>
      simp_all [sds, jshSetFlowControlXON, updateDevState, jshUSARTKick]
  · intro hp
    simp only [sds] at hp
    simp [sds, jshGetCharToTransmit, hdev, hp, updateDevState]
  · intro hp hq
    simp only [sds] at hp hq
    simp [sds, jshGetCharToTransmit, hdev, hp, hq, updateDevState]

theorem claim_C7_witness :
    ((sds (jshSetFlowControlXON txFlowExample 4 false) 4).xoffPending
        = ((sds txFlowExample 4).xoffPending
            || (!(sds txFlowExample 4).xoffSent && !(sds txFlowExample 4).xoffPending))
      ∧ (sds (jshSetFlowControlXON txFlowExample 4 false) 4).xoffSent
          = (sds txFlowExample 4).xoffSent
      ∧ (sds (jshSetFlowControlXON txFlowExample 4 false) 4).xonPending
          = (sds txFlowExample 4).xonPending) ∧
    ((sds (jshSetFlowControlXON txFlowExample 4 true) 4).xonPending
        = ((sds txFlowExample 4).xonPending
            || ((sds txFlowExample 4).xoffSent && !(sds txFlowExample 4).xonPending))
      ∧ (sds (jshSetFlowControlXON txFlowExample 4 true) 4).xoffSent
          = (sds txFlowExample 4).xoffSent
      ∧ (sds (jshSetFlowControlXON txFlowExample 4 true) 4).xoffPending
          = (sds txFlowExample 4).xoffPending) ∧
    ((sds txFlowExample 4).xoffPending = true →
      (jshGetCharToTransmit 4 txFlowExample).1 = some 19
      ∧ (sds (jshGetCharToTransmit 4 txFlowExample).2 4).xoffPending = false
      ∧ (sds (jshGetCharToTransmit 4 txFlowExample).2 4).xoffSent = true
      ∧ (jshGetCharToTransmit 4 txFlowExample).2.buf = txFlowExample.buf
      ∧ (jshGetCharToTransmit 4 txFlowExample).2.txHead = txFlowExample.txHead
      ∧ (jshGetCharToTransmit 4 txFlowExample).2.txTail = txFlowExample.txTail) ∧
    ((sds txFlowExample 4).xoffPending = false → (sds txFlowExample 4).xonPending = true →
      (jshGetCharToTransmit 4 txFlowExample).1 = some 17
      ∧ (sds (jshGetCharToTransmit 4 txFlowExample).2 4).xonPending = false
      ∧ (sds (jshGetCharToTransmit 4 txFlowExample).2 4).xoffSent = false
      ∧ (jshGetCharToTransmit 4 txFlowExample).2.buf = txFlowExample.buf
      ∧ (jshGetCharToTransmit 4 txFlowExample).2.txHead = txFlowExample.txHead
      ∧ (jshGetCharToTransmit 4 txFlowExample).2.txTail = txFlowExample.txTail) :=
  claim_C7 txFlowExample 4 (by decide) (by decide)

/-! ## Console handler step lemmas -/

theorem handleChar_two (o : EditOracle) : jsiHandleConsoleChar o 2 = jsiHandleConsoleChar o (1 + 1) := rfl

theorem handle_dle (o : EditOracle) (c : ConsoleState) (h : c.inputState = IPS_NONE) :
    ∃ e, jsiHandleConsoleChar o 2 16 c
      = { c with inputState := IPS_HAD_DLE, echoOffForLine := e } := by
  rw [handleChar_two]
  by_cases hemp : c.inputLine = []
  · refine ⟨true, ?_⟩
    simp [jsiHandleConsoleChar, h, hemp, IPS_NONE, IPS_HAD_DLE, IPS_PACKET_TRANSFER_BYTE0,
      IPS_PACKET_TRANSFER_BYTE1, IPS_PACKET_TRANSFER_DATA, IS_PACKET_TRANSFER]
  · refine ⟨c.echoOffForLine, ?_⟩
    simp [jsiHandleConsoleChar, h, hemp, IPS_NONE, IPS_HAD_DLE, IPS_PACKET_TRANSFER_BYTE0,
      IPS_PACKET_TRANSFER_BYTE1, IPS_PACKET_TRANSFER_DATA, IS_PACKET_TRANSFER]

theorem handle_soh (o : EditOracle) (c : ConsoleState) (h : c.inputState = IPS_HAD_DLE) :
    jsiHandleConsoleChar o 2 1 c = jsiPacketStart c := by
  rw [handleChar_two]
  simp [jsiHandleConsoleChar, h, IPS_HAD_DLE, IPS_PACKET_TRANSFER_BYTE0,
    IPS_PACKET_TRANSFER_BYTE1, IPS_PACKET_TRANSFER_DATA, IS_PACKET_TRANSFER]

theorem handle_byte0 (o : EditOracle) (b : Nat) (c : ConsoleState)
    (h : c.inputState = IPS_PACKET_TRANSFER_BYTE0) :
    ∃ e x, jsiHandleConsoleChar o 2 b c
      = { c with
          echoOffForLine := e, execCtrlC := x,
          inputPacketLength := (b % 256) <<< 8,
          inputState := IPS_PACKET_TRANSFER_BYTE1 } := by
  rw [handleChar_two]
  by_cases hb3 : b = 3 <;> by_cases hemp : c.inputLine = []
  · exact ⟨false, false, by simp [jsiHandleConsoleChar, h, hb3, hemp, IPS_NONE, IPS_HAD_DLE, IPS_PACKET_TRANSFER_BYTE0, IPS_PACKET_TRANSFER_BYTE1, IPS_PACKET_TRANSFER_DATA, IS_PACKET_TRANSFER]⟩
  · exact ⟨c.echoOffForLine, false, by simp [jsiHandleConsoleChar, h, hb3, hemp, IPS_NONE, IPS_HAD_DLE, IPS_PACKET_TRANSFER_BYTE0, IPS_PACKET_TRANSFER_BYTE1, IPS_PACKET_TRANSFER_DATA, IS_PACKET_TRANSFER]⟩
  · exact ⟨false, c.execCtrlC, by simp [jsiHandleConsoleChar, h, hb3, hemp, IPS_NONE, IPS_HAD_DLE, IPS_PACKET_TRANSFER_BYTE0, IPS_PACKET_TRANSFER_BYTE1, IPS_PACKET_TRANSFER_DATA, IS_PACKET_TRANSFER]⟩
  · exact ⟨c.echoOffForLine, c.execCtrlC,
      by simp [jsiHandleConsoleChar, h, hb3, hemp, IPS_NONE, IPS_HAD_DLE, IPS_PACKET_TRANSFER_BYTE0, IPS_PACKET_TRANSFER_BYTE1, IPS_PACKET_TRANSFER_DATA, IS_PACKET_TRANSFER]⟩

theorem handle_byte1_pos (o : EditOracle) (b : Nat) (c : ConsoleState)
    (h : c.inputState = IPS_PACKET_TRANSFER_BYTE1)
    (hnz : ¬ (c.inputPacketLength ||| (b % 256)) &&& PT_SIZE_MASK = 0) :
    ∃ x, jsiHandleConsoleChar o 2 b c
      = { c with
          execCtrlC := x,
          inputPacketLength := c.inputPacketLength ||| (b % 256),
          inputState := IPS_PACKET_TRANSFER_DATA } := by
  rw [handleChar_two]
  by_cases hb3 : b = 3
  · subst hb3
    have hnz2 : ¬ (c.inputPacketLength ||| 3) &&& PT_SIZE_MASK = 0 := by simpa using hnz
    exact ⟨false, by simp [jsiHandleConsoleChar, h, hnz2, IPS_NONE, IPS_HAD_DLE, IPS_PACKET_TRANSFER_BYTE0, IPS_PACKET_TRANSFER_BYTE1, IPS_PACKET_TRANSFER_DATA, IS_PACKET_TRANSFER]⟩
  · exact ⟨c.execCtrlC, by simp [jsiHandleConsoleChar, h, hb3, hnz, IPS_NONE, IPS_HAD_DLE, IPS_PACKET_TRANSFER_BYTE0, IPS_PACKET_TRANSFER_BYTE1, IPS_PACKET_TRANSFER_DATA, IS_PACKET_TRANSFER]⟩

theorem handle_byte1_zero (o : EditOracle) (b : Nat) (c : ConsoleState)
    (h : c.inputState = IPS_PACKET_TRANSFER_BYTE1)
    (hz : (c.inputPacketLength ||| (b % 256)) &&& PT_SIZE_MASK = 0) :
    ∃ x, jsiHandleConsoleChar o 2 b c
      = jsiPacketProcess { c with
          execCtrlC := x,
          inputPacketLength := c.inputPacketLength ||| (b % 256) } := by
  rw [handleChar_two]
  by_cases hb3 : b = 3
  · subst hb3
    have hz2 : (c.inputPacketLength ||| 3) &&& PT_SIZE_MASK = 0 := by simpa using hz
    exact ⟨false, by simp [jsiHandleConsoleChar, h, hz2, IPS_NONE, IPS_HAD_DLE, IPS_PACKET_TRANSFER_BYTE0, IPS_PACKET_TRANSFER_BYTE1, IPS_PACKET_TRANSFER_DATA, IS_PACKET_TRANSFER]⟩
  · exact ⟨c.execCtrlC, by simp [jsiHandleConsoleChar, h, hb3, hz, IPS_NONE, IPS_HAD_DLE, IPS_PACKET_TRANSFER_BYTE0, IPS_PACKET_TRANSFER_BYTE1, IPS_PACKET_TRANSFER_DATA, IS_PACKET_TRANSFER]⟩

theorem handle_data (o : EditOracle) (b : Nat) (c : ConsoleState)
    (h : c.inputState = IPS_PACKET_TRANSFER_DATA)
    (hill : (if c.inputLineLength < 0 then (c.inputLine.length : Int) else c.inputLineLength)
      = (c.inputLine.length : Int)) :
    ∃ x, jsiHandleConsoleChar o 2 b c
      = if ((c.inputPacketLength &&& PT_SIZE_MASK : Nat) : Int) ≤ (c.inputLine.length : Int) + 1
        then jsiPacketProcess { c with
            inputLine := c.inputLine ++ [b % 256],
            inputLineLength := (c.inputLine.length : Int) + 1, execCtrlC := x }
        else { c with
            inputLine := c.inputLine ++ [b % 256],
            inputLineLength := (c.inputLine.length : Int) + 1, execCtrlC := x } := by
  rw [handleChar_two]
  by_cases hb3 : b = 3
  · refine ⟨false, ?_⟩
    simp [jsiHandleConsoleChar, jsiAppendToInputLine, h, hb3, hill, IPS_NONE, IPS_HAD_DLE, IPS_PACKET_TRANSFER_BYTE0, IPS_PACKET_TRANSFER_BYTE1, IPS_PACKET_TRANSFER_DATA, IS_PACKET_TRANSFER]
  · refine ⟨c.execCtrlC, ?_⟩
    simp [jsiHandleConsoleChar, jsiAppendToInputLine, h, hb3, hill, IPS_NONE, IPS_HAD_DLE, IPS_PACKET_TRANSFER_BYTE0, IPS_PACKET_TRANSFER_BYTE1, IPS_PACKET_TRANSFER_DATA, IS_PACKET_TRANSFER]

/-! ## Running the console handler over byte lists -/

theorem runConsole_nil (o : EditOracle) (c : ConsoleState) : runConsole o c [] = c := rfl

theorem runConsole_cons (o : EditOracle) (c : ConsoleState) (b : Nat) (bs : List Nat) :
    runConsole o c (b :: bs) = runConsole o (jsiHandleConsoleChar o 2 b c) bs := rfl

theorem runConsole_append (o : EditOracle) (c : ConsoleState) (xs ys : List Nat) :
    runConsole o c (xs ++ ys) = runConsole o (runConsole o c xs) ys := by
  simp [runConsole, List.foldl_append]

theorem dataRunPartial (o : EditOracle) : ∀ (rest : List Nat) (c : ConsoleState),
    c.inputState = IPS_PACKET_TRANSFER_DATA →
    (if c.inputLineLength < 0 then (c.inputLine.length : Int) else c.inputLineLength)
      = (c.inputLine.length : Int) →
    (∀ b ∈ rest, b < 256) →
    c.inputLine.length + rest.length < c.inputPacketLength &&& PT_SIZE_MASK →
    (runConsole o c rest).inputState = IPS_PACKET_TRANSFER_DATA ∧
    (runConsole o c rest).processed = c.processed ∧
    (runConsole o c rest).inputLine = c.inputLine ++ rest ∧
    (if (runConsole o c rest).inputLineLength < 0
      then ((runConsole o c rest).inputLine.length : Int)
      else (runConsole o c rest).inputLineLength)
      = ((runConsole o c rest).inputLine.length : Int) ∧
    (runConsole o c rest).inputPacketLength = c.inputPacketLength ∧
    (runConsole o c rest).savedInputLine = c.savedInputLine ∧
    (runConsole o c rest).packetTimeout = c.packetTimeout := by
  intro rest
  induction rest with
  | nil =>
    intro c h hill hb hlt
    exact ⟨h, rfl, (List.append_nil _).symm, hill, rfl, rfl, rfl⟩
  | cons a rest ih =>
    intro c h hill hb hlt
    obtain ⟨x, hx⟩ := handle_data o a c h hill
    have hcond : ¬ ((c.inputPacketLength &&& PT_SIZE_MASK : Nat) : Int)
        ≤ (c.inputLine.length : Int) + 1 := by
      simp only [List.length_cons] at hlt
      push_cast
      omega
    rw [if_neg hcond] at hx
    have ha : a % 256 = a := Nat.mod_eq_of_lt (hb a (List.mem_cons_self a rest))
    set c2 : ConsoleState := { c with
      inputLine := c.inputLine ++ [a % 256],
      inputLineLength := (c.inputLine.length : Int) + 1, execCtrlC := x } with hc2
    rw [runConsole_cons, hx]
    have hst2 : c2.inputState = IPS_PACKET_TRANSFER_DATA := h
    have hill2 : (if c2.inputLineLength < 0 then (c2.inputLine.length : Int)
        else c2.inputLineLength) = (c2.inputLine.length : Int) := by
      rw [if_neg (by show ¬ (c.inputLine.length : Int) + 1 < 0; omega)]
      show (c.inputLine.length : Int) + 1 = ((c.inputLine ++ [a % 256]).length : Int)
      simp
    have hlt2 : c2.inputLine.length + rest.length < c2.inputPacketLength &&& PT_SIZE_MASK := by
      show (c.inputLine ++ [a % 256]).length + rest.length
        < c.inputPacketLength &&& PT_SIZE_MASK
      simp only [List.length_append, List.length_cons] at hlt ⊢
      simp
      omega
    obtain ⟨g1, g2, g3, g4, g5, g6, g7⟩ := ih c2 hst2 hill2
      (fun b hbm => hb b (List.mem_cons_of_mem a hbm)) hlt2
    refine ⟨g1, g2, ?_, g4, g5, g6, g7⟩
    rw [g3]
    show (c.inputLine ++ [a % 256]) ++ rest = c.inputLine ++ a :: rest
    rw [ha, List.append_assoc]
    rfl

theorem dataRun (o : EditOracle) : ∀ (rest : List Nat) (c : ConsoleState),
    c.inputState = IPS_PACKET_TRANSFER_DATA →
    (if c.inputLineLength < 0 then (c.inputLine.length : Int) else c.inputLineLength)
      = (c.inputLine.length : Int) →
    (∀ b ∈ rest, b < 256) →
    c.inputLine.length + rest.length = c.inputPacketLength &&& PT_SIZE_MASK →
    rest ≠ [] →
    (runConsole o c rest).processed
      = c.processed ++ [(c.inputPacketLength &&& PT_TYPE_MASK,
          c.inputPacketLength &&& PT_SIZE_MASK, c.inputLine ++ rest)] ∧
    (runConsole o c rest).inputState = IPS_NONE ∧
    (runConsole o c rest).inputLine
      = (match c.savedInputLine with | some l => l | none => []) ∧
    (runConsole o c rest).savedInputLine = none ∧
    (runConsole o c rest).packetTimeout = none := by
  intro rest
  induction rest with
  | nil =>
    intro c _ _ _ _ hne
    exact absurd rfl hne
  | cons a rest ih =>
    intro c h hill hb hsum hne
    obtain ⟨x, hx⟩ := handle_data o a c h hill
    have ha : a % 256 = a := Nat.mod_eq_of_lt (hb a (List.mem_cons_self a rest))
    by_cases hrest : rest = []
    · subst hrest
      have hcond : ((c.inputPacketLength &&& PT_SIZE_MASK : Nat) : Int)
          ≤ (c.inputLine.length : Int) + 1 := by
        simp only [List.length_cons, List.length_nil] at hsum
        omega
      rw [if_pos hcond] at hx
      rw [runConsole_cons, hx, runConsole_nil]
      refine ⟨?_, rfl, rfl, rfl, rfl⟩
      show ({ c with
          inputLine := c.inputLine ++ [a % 256],
          inputLineLength := (c.inputLine.length : Int) + 1,
          execCtrlC := x } : ConsoleState).processed
          ++ [(c.inputPacketLength &&& PT_TYPE_MASK, c.inputPacketLength &&& PT_SIZE_MASK,
               c.inputLine ++ [a % 256])]
        = c.processed ++ [(c.inputPacketLength &&& PT_TYPE_MASK,
            c.inputPacketLength &&& PT_SIZE_MASK, c.inputLine ++ [a])]
      rw [ha]
    · have hcond : ¬ ((c.inputPacketLength &&& PT_SIZE_MASK : Nat) : Int)
          ≤ (c.inputLine.length : Int) + 1 := by
        have hrlen : 0 < rest.length := List.length_pos.2 hrest
        simp only [List.length_cons] at hsum
        push_cast
        omega
      rw [if_neg hcond] at hx
      set c2 : ConsoleState := { c with
        inputLine := c.inputLine ++ [a % 256],
        inputLineLength := (c.inputLine.length : Int) + 1, execCtrlC := x } with hc2
      rw [runConsole_cons, hx]
      have hst2 : c2.inputState = IPS_PACKET_TRANSFER_DATA := h
      have hill2 : (if c2.inputLineLength < 0 then (c2.inputLine.length : Int)
          else c2.inputLineLength) = (c2.inputLine.length : Int) := by
        rw [if_neg (by show ¬ (c.inputLine.length : Int) + 1 < 0; omega)]
        show (c.inputLine.length : Int) + 1 = ((c.inputLine ++ [a % 256]).length : Int)
        simp
      have hsum2 : c2.inputLine.length + rest.length = c2.inputPacketLength &&& PT_SIZE_MASK := by
        show (c.inputLine ++ [a % 256]).length + rest.length
          = c.inputPacketLength &&& PT_SIZE_MASK
        simp only [List.length_cons] at hsum
        simp
        omega
      obtain ⟨g1, g2, g3, g4, g5⟩ := ih c2 hst2 hill2
        (fun b hbm => hb b (List.mem_cons_of_mem a hbm)) hsum2 hrest
      refine ⟨?_, g2, g3, g4, g5⟩
      rw [g1]
      show c.processed ++ [(c.inputPacketLength &&& PT_TYPE_MASK,
          c.inputPacketLength &&& PT_SIZE_MASK, (c.inputLine ++ [a % 256]) ++ rest)]
        = c.processed ++ [(c.inputPacketLength &&& PT_TYPE_MASK,
            c.inputPacketLength &&& PT_SIZE_MASK, c.inputLine ++ a :: rest)]
      rw [ha, List.append_assoc]
      rfl

/-! ## The packet header: DLE SOH then two length bytes -/

theorem headerRun (o : EditOracle) (c0 : ConsoleState) (b0 b1 : Nat)
    (hc0 : c0.inputState = IPS_NONE)
    (hnz : ¬ (((b0 % 256) <<< 8) ||| (b1 % 256)) &&& PT_SIZE_MASK = 0) :
    ∃ e x, runConsole o c0 [16, 1, b0, b1]
      = { c0 with
          inputState := IPS_PACKET_TRANSFER_DATA,
          inputPacketLength := ((b0 % 256) <<< 8) ||| (b1 % 256),
          inputLine := [], inputLineLength := -1,
          savedInputLine := some c0.inputLine, packetTimeout := some 5000,
          echoOffForLine := e, execCtrlC := x } := by
  obtain ⟨e, h1⟩ := handle_dle o c0 hc0
  have h2 : jsiHandleConsoleChar o 2 1
      ({ c0 with inputState := IPS_HAD_DLE, echoOffForLine := e } : ConsoleState)
      = { c0 with
          inputState := IPS_PACKET_TRANSFER_BYTE0, inputLine := [], inputLineLength := -1,
          savedInputLine := some c0.inputLine, packetTimeout := some 5000,
          echoOffForLine := e } :=
    (handle_soh o _ rfl).trans rfl
  obtain ⟨e2, x2, h3⟩ := handle_byte0 o b0
    ({ c0 with
        inputState := IPS_PACKET_TRANSFER_BYTE0, inputLine := [], inputLineLength := -1,
        savedInputLine := some c0.inputLine, packetTimeout := some 5000,
        echoOffForLine := e } : ConsoleState) rfl
  obtain ⟨x3, h4⟩ := handle_byte1_pos o b1
    ({ c0 with
        inputState := IPS_PACKET_TRANSFER_BYTE1,
        inputPacketLength := (b0 % 256) <<< 8,
        inputLine := [], inputLineLength := -1,
        savedInputLine := some c0.inputLine, packetTimeout := some 5000,
        echoOffForLine := e2, execCtrlC := x2 } : ConsoleState) rfl hnz
  refine ⟨e2, x3, ?_⟩
  rw [runConsole_cons, h1, runConsole_cons, h2, runConsole_cons, h3, runConsole_cons]
  rw [show ({ ({ c0 with
        inputState := IPS_PACKET_TRANSFER_BYTE0, inputLine := [], inputLineLength := -1,
        savedInputLine := some c0.inputLine, packetTimeout := some 5000,
        echoOffForLine := e } : ConsoleState) with
      echoOffForLine := e2, execCtrlC := x2,
      inputPacketLength := (b0 % 256) <<< 8,
      inputState := IPS_PACKET_TRANSFER_BYTE1 } : ConsoleState)
    = ({ c0 with
        inputState := IPS_PACKET_TRANSFER_BYTE1,
        inputPacketLength := (b0 % 256) <<< 8,
        inputLine := [], inputLineLength := -1,
        savedInputLine := some c0.inputLine, packetTimeout := some 5000,
        echoOffForLine := e2, execCtrlC := x2 } : ConsoleState) from rfl]
  rw [h4, runConsole_nil]

theorem headerRun0 (o : EditOracle) (c0 : ConsoleState) (b0 b1 : Nat)
    (hc0 : c0.inputState = IPS_NONE)
    (hz : (((b0 % 256) <<< 8) ||| (b1 % 256)) &&& PT_SIZE_MASK = 0) :
    ∃ e x, runConsole o c0 [16, 1, b0, b1]
      = jsiPacketProcess { c0 with
          inputState := IPS_PACKET_TRANSFER_BYTE1,
          inputPacketLength := ((b0 % 256) <<< 8) ||| (b1 % 256),
          inputLine := [], inputLineLength := -1,
          savedInputLine := some c0.inputLine, packetTimeout := some 5000,
          echoOffForLine := e, execCtrlC := x } := by
  obtain ⟨e, h1⟩ := handle_dle o c0 hc0
  have h2 : jsiHandleConsoleChar o 2 1
      ({ c0 with inputState := IPS_HAD_DLE, echoOffForLine := e } : ConsoleState)
      = { c0 with
          inputState := IPS_PACKET_TRANSFER_BYTE0, inputLine := [], inputLineLength := -1,
          savedInputLine := some c0.inputLine, packetTimeout := some 5000,
          echoOffForLine := e } :=
    (handle_soh o _ rfl).trans rfl
  obtain ⟨e2, x2, h3⟩ := handle_byte0 o b0
    ({ c0 with
        inputState := IPS_PACKET_TRANSFER_BYTE0, inputLine := [], inputLineLength := -1,
        savedInputLine := some c0.inputLine, packetTimeout := some 5000,
        echoOffForLine := e } : ConsoleState) rfl
  obtain ⟨x3, h4⟩ := handle_byte1_zero o b1
    ({ c0 with
        inputState := IPS_PACKET_TRANSFER_BYTE1,
        inputPacketLength := (b0 % 256) <<< 8,
        inputLine := [], inputLineLength := -1,
        savedInputLine := some c0.inputLine, packetTimeout := some 5000,
        echoOffForLine := e2, execCtrlC := x2 } : ConsoleState) rfl hz
  refine ⟨e2, x3, ?_⟩
  rw [runConsole_cons, h1, runConsole_cons, h2, runConsole_cons, h3, runConsole_cons]
  rw [show ({ ({ c0 with
        inputState := IPS_PACKET_TRANSFER_BYTE0, inputLine := [], inputLineLength := -1,
        savedInputLine := some c0.inputLine, packetTimeout := some 5000,
        echoOffForLine := e } : ConsoleState) with
      echoOffForLine := e2, execCtrlC := x2,
      inputPacketLength := (b0 % 256) <<< 8,
      inputState := IPS_PACKET_TRANSFER_BYTE1 } : ConsoleState)
    = ({ c0 with
        inputState := IPS_PACKET_TRANSFER_BYTE1,
        inputPacketLength := (b0 % 256) <<< 8,
        inputLine := [], inputLineLength := -1,
        savedInputLine := some c0.inputLine, packetTimeout := some 5000,
        echoOffForLine := e2, execCtrlC := x2 } : ConsoleState) from rfl]
  rw [h4, runConsole_nil]

/-- C8: a byte stream that enters packet-transfer mode (DLE SOH, then two
length bytes, then the payload) accumulates the two bytes after DLE SOH as
a 16-bit big-endian value (first byte shifted into the high bits); its
PT_TYPE_MASK bits (the top three) select the packet type among
PT_TYPE_RESPONSE, PT_TYPE_EVAL, PT_TYPE_EVENT, PT_TYPE_FILE_SEND,
PT_TYPE_DATA, PT_TYPE_FILE_RECV, and its PT_SIZE_MASK bits (the low
thirteen) give the payload length.  While fewer payload bytes than
declared have arrived, nothing is processed and the machine stays in
IPS_PACKET_TRANSFER_DATA; the packet is processed exactly when the payload
reaches the declared length (immediately after the length bytes when the
length is zero), after which the machine is back at IPS_NONE with the
checkpointed input line restored and the timeout cancelled. -/
theorem claim_C8 (o : EditOracle) (c0 : ConsoleState) (b0 b1 : Nat) (payload : List Nat)
    (hc0 : c0.inputState = IPS_NONE)
    (hbytes : ∀ b ∈ payload, b < 256)
    (hlen : (((b0 % 256) <<< 8) ||| (b1 % 256)) &&& PT_SIZE_MASK = payload.length) :
    (∀ k, k < payload.length →
      (runConsole o c0 ([16, 1, b0, b1] ++ payload.take k)).inputState
        = IPS_PACKET_TRANSFER_DATA ∧
      (runConsole o c0 ([16, 1, b0, b1] ++ payload.take k)).processed = c0.processed) ∧
    (runConsole o c0 ([16, 1, b0, b1] ++ payload)).processed
      = c0.processed ++ [((((b0 % 256) <<< 8) ||| (b1 % 256)) &&& PT_TYPE_MASK,
          payload.length, payload)] ∧
    (runConsole o c0 ([16, 1, b0, b1] ++ payload)).inputState = IPS_NONE ∧
    (runConsole o c0 ([16, 1, b0, b1] ++ payload)).inputLine = c0.inputLine ∧
    (runConsole o c0 ([16, 1, b0, b1] ++ payload)).packetTimeout = none := by
  by_cases hz : (((b0 % 256) <<< 8) ||| (b1 % 256)) &&& PT_SIZE_MASK = 0
  · have hpl : payload = [] := List.length_eq_zero.1 (by rw [← hlen]; exact hz)
    subst hpl
    obtain ⟨e, x, hr⟩ := headerRun0 o c0 b0 b1 hc0 hz
    refine ⟨fun k hk => absurd hk (by simp), ?_, ?_, ?_, ?_⟩ <;>
      rw [List.append_nil, hr] <;>
      simp [jsiPacketProcess, jsiPacketExit, jsiInputLineCursorMoved, hz]
  · obtain ⟨e, x, hr⟩ := headerRun o c0 b0 b1 hc0 hz
    have hplen : 0 < payload.length := by
      rw [← hlen]
      omega
    constructor
    · intro k hk
      rw [runConsole_append, hr]
      have hP := dataRunPartial o (payload.take k)
        ({ c0 with
            inputState := IPS_PACKET_TRANSFER_DATA,
            inputPacketLength := ((b0 % 256) <<< 8) ||| (b1 % 256),
            inputLine := [], inputLineLength := -1,
            savedInputLine := some c0.inputLine, packetTimeout := some 5000,
            echoOffForLine := e, execCtrlC := x } : ConsoleState)
        rfl (by simp)
        (fun b hb => hbytes b (List.take_subset k payload hb))
        (by
          show List.length [] + (payload.take k).length
            < (((b0 % 256) <<< 8) ||| (b1 % 256)) &&& PT_SIZE_MASK
          rw [hlen]
          simp [List.length_take]
          omega)
      exact ⟨hP.1, hP.2.1⟩
    · rw [runConsole_append, hr]
      have hD := dataRun o payload
        ({ c0 with
            inputState := IPS_PACKET_TRANSFER_DATA,
            inputPacketLength := ((b0 % 256) <<< 8) ||| (b1 % 256),
            inputLine := [], inputLineLength := -1,
            savedInputLine := some c0.inputLine, packetTimeout := some 5000,
            echoOffForLine := e, execCtrlC := x } : ConsoleState)
        rfl (by simp) hbytes
        (by
          show List.length [] + payload.length
            = (((b0 % 256) <<< 8) ||| (b1 % 256)) &&& PT_SIZE_MASK
          rw [hlen]
          simp)
        (by
          intro hpl
          rw [hpl] at hplen
          simp at hplen)
      obtain ⟨g1, g2, g3, g4, g5⟩ := hD
      refine ⟨?_, g2, ?_, g5⟩
      · rw [g1]
        show c0.processed ++ [((((b0 % 256) <<< 8) ||| (b1 % 256)) &&& PT_TYPE_MASK,
            (((b0 % 256) <<< 8) ||| (b1 % 256)) &&& PT_SIZE_MASK, [] ++ payload)]
          = c0.processed ++ [((((b0 % 256) <<< 8) ||| (b1 % 256)) &&& PT_TYPE_MASK,
              payload.length, payload)]
        rw [hlen, List.nil_append]
      · exact g3

theorem claim_C8_witness :
    (∀ k, k < ([65, 66] : List Nat).length →
      (runConsole idOracle initConsole ([16, 1, 32, 2] ++ ([65, 66] : List Nat).take k)).inputState
        = IPS_PACKET_TRANSFER_DATA ∧
      (runConsole idOracle initConsole ([16, 1, 32, 2] ++ ([65, 66] : List Nat).take k)).processed
        = initConsole.processed) ∧
    (runConsole idOracle initConsole ([16, 1, 32, 2] ++ [65, 66])).processed
      = initConsole.processed ++ [((((32 % 256) <<< 8) ||| (2 % 256)) &&& PT_TYPE_MASK,
          ([65, 66] : List Nat).length, [65, 66])] ∧
    (runConsole idOracle initConsole ([16, 1, 32, 2] ++ [65, 66])).inputState = IPS_NONE ∧
    (runConsole idOracle initConsole ([16, 1, 32, 2] ++ [65, 66])).inputLine
      = initConsole.inputLine ∧
    (runConsole idOracle initConsole ([16, 1, 32, 2] ++ [65, 66])).packetTimeout = none :=
  claim_C8 idOracle initConsole 32 2 [65, 66] (by decide) (by decide) (by decide)

/-! ## The packet timeout (claim C9) -/

/-- C9: entering packet-transfer mode with DLE SOH arms the PK_TIMEOUT
no-data timeout whose handler prints NAK (0x15, 21) on the console and
aborts back to IPS_NONE with the checkpointed input line restored — but
the timeout jsiPacketStart arms is jsiSetTimeout(jsiPacketTimeoutHandler,
5000), five seconds, not the one second the specification (and the
handler's own comment in the source) states.  jsiSetTimeout takes
milliseconds: the companion file timeout passes 10000 for its documented
ten seconds. -/
theorem claim_C9 :
    (runConsole idOracle initConsole [ASCII_DLE, ASCII_SOH]).packetTimeout = some 5000 ∧
    ¬ (runConsole idOracle initConsole [ASCII_DLE, ASCII_SOH]).packetTimeout = some 1000 ∧
    (jsiPacketTimeoutHandler
        (runConsole idOracle initConsole [ASCII_DLE, ASCII_SOH])).sent = [ASCII_NAK] ∧
    (jsiPacketTimeoutHandler
        (runConsole idOracle initConsole [ASCII_DLE, ASCII_SOH])).inputState = IPS_NONE ∧
    (jsiPacketTimeoutHandler
        (runConsole idOracle initConsole [ASCII_DLE, ASCII_SOH])).inputLine
      = initConsole.inputLine := by
  decide

/-! ## Ctrl-C during packet transfer (claim C10) -/

/-- C10 (as amended): in any packet-transfer state (IPS_PACKET_TRANSFER_BYTE0,
BYTE1 or DATA) jsiCtrlC returns without raising the EXEC_CTRL_C flag, and a
flag already latched is cleared when the next Ctrl-C byte (0x03) is handled
by jsiHandleConsoleChar in a packet-transfer state.  (The original claim,
that any next byte clears the latched flag, is refuted by the
counterexample: the clear at the top of jsiHandleConsoleChar only fires
when the handled byte is itself 0x03.) -/
theorem claim_C10 (o : EditOracle) (c : ConsoleState) (ch : Nat)
    (hps : IS_PACKET_TRANSFER c.inputState = true) :
    jsiCtrlC c = c ∧
    (ch = 3 → (jsiHandleConsoleChar o 2 ch c).execCtrlC = false) := by
  constructor
  · simp [jsiCtrlC, hps]
  · intro hch
    subst hch
    rw [handleChar_two]
    have hps2 : 2 ≤ c.inputState ∧ c.inputState ≤ 4 := by
      simpa [IS_PACKET_TRANSFER, IPS_PACKET_TRANSFER_BYTE0, IPS_PACKET_TRANSFER_DATA]
        using hps
    have hcase : c.inputState = 2 ∨ c.inputState = 3 ∨ c.inputState = 4 := by omega
    rcases hcase with hst | hst | hst <;>
      simp [jsiHandleConsoleChar, hst, IS_PACKET_TRANSFER, IPS_PACKET_TRANSFER_BYTE0,
        IPS_PACKET_TRANSFER_BYTE1, IPS_PACKET_TRANSFER_DATA, jsiPacketProcess,
        jsiPacketExit, jsiInputLineCursorMoved, jsiAppendToInputLine, apply_ite
        (f := ConsoleState.execCtrlC)]

theorem claim_C10_witness :
    jsiCtrlC packetExample = packetExample ∧
    ((3 : Nat) = 3 →
      (jsiHandleConsoleChar idOracle 2 3 packetExample).execCtrlC = false) :=
  claim_C10 idOracle packetExample 3 (by decide)

/-- The original C10 is too strong: with a Ctrl-C flag latched in the
middle of a packet body, handling an ordinary data byte (65) leaves the
flag latched; only a 0x03 byte clears it. -/
theorem claim_C10_counterexample :
    IS_PACKET_TRANSFER packetExample.inputState = true ∧
    packetExample.execCtrlC = true ∧
    (jsiHandleConsoleChar idOracle 2 65 packetExample).execCtrlC = true := by
  decide

end Espruino
